import Mathlib

/-!
Verification of the action-routing and sequencing core of the
computer-use-mcp repository, via a shallow embedding in Lean 4.

Conventions of the embedding:
* TypeScript exceptions are modelled with `Except String`: `.error msg`
  is a thrown exception carrying its message, `.ok` a normal return.
  A function returning a plain value (not `Except`) models code that
  cannot throw.
* JSON payloads produced with `JSON.stringify` over object literals are
  modelled by dedicated constructors carrying the same fields (a
  `stack` field, being a runtime artifact, is elided).
* `await` points and timer delays have no observable effect on the
  values computed, so `setTimeout`-style delays are carried as data but
  do not influence results.
* The nut-js input/capture backend is an external collaborator; its
  behaviour is abstracted into explicit parameters (window lists,
  screen dimensions, handler behaviour functions).
-/

/-- A JSON-ish parameter value as used in tool params (`window` ids may be
strings or numbers, coordinates are 2-element number arrays, flags are
booleans). -/
inductive JsonVal where
  | str (s : String)
  | num (n : Int)
  | bool (b : Bool)
  | pair (a b : Int)
  deriving DecidableEq, Repr

/-- A parameter bag (`Record<string, unknown>`), as an association list. -/
abbrev ParamBag := List (String × JsonVal)

/-- Look up a key in a parameter bag (first binding wins, as in a JS object
built left to right). -/
def getParam : ParamBag → String → Option JsonVal
  | [], _ => none
  | (k, v) :: rest, key => if k = key then some v else getParam rest key

/-- Per-step entry of the `results` array in the sequence summary JSON
(`{command: {tool, action}, success, error?}`). -/
structure StepReport where
  tool : String
  action : String
  success : Bool
  error : Option String
  deriving DecidableEq, Repr

/-- The JSON object the sequence engine stringifies into its summary text
item.  `executed` and `errorMsg` are `none` exactly when the corresponding
keys are absent from the serialized object (the success-path summary of
sequence-handler.ts lines 221-237 has no `executed`/`error` keys; the
error-path summary of lines 180-198 has both). -/
structure SeqSummary where
  status : String
  total : Nat
  executed : Option Nat
  successful : Nat
  failed : Nat
  errorMsg : Option String
  results : List StepReport
  deriving DecidableEq, Repr

/-- The number of steps the record shows as attempted: the length of its
per-step `results` array (on the error path this is also the value of the
explicit `executed` field). -/
def SeqSummary.executedSteps (s : SeqSummary) : Nat :=
  s.results.length

/-- One content item of a tool response: plain text, an image (base64
payload), a sequence summary (a stringified `SeqSummary`), a stringified
error object (`{success:false, error:{name, message, context}}`), or a
stringified window-focus result. -/
inductive ContentItem where
  | text (s : String)
  | image (data : String)
  | summary (s : SeqSummary)
  | errorJson (name message : String) (context : Option String)
  | focusInfo (windowId : Int) (title : String) (selectedWindow : Option Int)
  deriving DecidableEq, Repr

/-- Whether a content item is an image (`c.type === 'image'`). -/
def isImageItem : ContentItem → Bool
  | .image _ => true
  | _ => false

/-- A tool response (`ToolResponse`): a content list plus the optional
`isError` flag. -/
structure ToolResponse where
  content : List ContentItem
  isError : Bool := false
  deriving DecidableEq, Repr

/-- error-response.ts `createErrorResponse`: wraps a thrown error into a
structured failure result (`success:false` with populated error fields,
`isError: true`).  Thrown errors are modelled by their message, so the
JS `error.name` is the generic `"Error"`. -/
def createErrorResponse (message : String) (context : Option String) : ToolResponse :=
  { content := [ContentItem.errorJson "Error" message context], isError := true }

/-- The trailing range note both `validateWindowId` error messages end
with: `Valid range: 0-${maxWindowId - 1}` (JS number arithmetic, so the
bound is `-1` when no windows exist). -/
def validRangeNote (maxWindowId : Nat) : String :=
  "Valid range: 0-" ++ toString ((maxWindowId : Int) - 1)

/-- error-response.ts `validateWindowId`: throws a descriptive error if the
window id is out of range `[0, maxWindowId)`.  (The `Number.isNaN` guard
has no counterpart for mathematical integers.) -/
def validateWindowId (windowId : Int) (maxWindowId : Nat) : Except String Unit :=
  if windowId < 0 then
    .error ("Invalid window ID: " ++ toString windowId ++
      ". Window ID cannot be negative. " ++ validRangeNote maxWindowId)
  else if (maxWindowId : Int) ≤ windowId then
    .error ("Invalid window ID: " ++ toString windowId ++
      ". Window ID exceeds available windows (" ++ toString maxWindowId ++
      " windows found). " ++ validRangeNote maxWindowId)
  else
    .ok ()

/-- Boolean test for a thrown exception. -/
def exceptFailed {α : Type} : Except String α → Bool
  | .error _ => true
  | .ok _ => false

/-- Boolean test for a normal return. -/
def exceptOk {α : Type} : Except String α → Bool
  | .error _ => false
  | .ok _ => true

/-! ## DI container (di-container.ts)

JS `Map<string, unknown>` values are modelled by `JsValue`, which includes
`undefined` (storable in a `Map`, yet indistinguishable from absence
through `Map.get`).  Registered IO-class instances are abstracted to
opaque tags. -/

/-- A value stored in the container: either `undefined` or some instance
(abstracted to a numeric tag). -/
inductive JsValue where
  | undef
  | instObj (tag : Nat)
  deriving DecidableEq, Repr

/-- The container's backing `Map<string, unknown>`, insertion-ordered. -/
abbrev DIMap := List (String × JsValue)

/-- `Map.prototype.get`: the stored value, or `none` when the key is
absent. -/
def diGet : DIMap → String → Option JsValue
  | [], _ => none
  | (k, v) :: rest, key => if k = key then some v else diGet rest key

/-- `Map.prototype.set`: replace an existing binding in place, else append. -/
def diSet : DIMap → String → JsValue → DIMap
  | [], key, v => [(key, v)]
  | (k, w) :: rest, key, v =>
    if k = key then (key, v) :: rest else (k, w) :: diSet rest key v

/-- di-container.ts `register`: stores the instance unconditionally. -/
def diRegister (m : DIMap) (key : String) (instVal : JsValue) : DIMap :=
  diSet m key instVal

/-- di-container.ts `resolve`: `Map.get` yields `undefined` both for a
missing key and for a stored `undefined`; the guard then throws. -/
def diResolve (m : DIMap) (key : String) : Except String JsValue :=
  let instVal := (diGet m key).getD JsValue.undef
  if instVal = JsValue.undef then
    .error ("No instance registered for key: " ++ key)
  else
    .ok instVal

/-- di-container.ts `has`: `Map.has`, true iff the key is present (even if
its stored value is `undefined`). -/
def diHas (m : DIMap) (key : String) : Bool :=
  (diGet m key).isSome

/-! ## Shared targeting context (window-context.ts) -/

/-- The `window` parameter as accepted by `getEffectiveWindow`:
`string | number`. -/
inductive WindowParam where
  | str (s : String)
  | num (n : Int)
  deriving DecidableEq, Repr

/-- A JS number that is either NaN (as produced by a failed
`Number.parseInt`) or an integer. -/
inductive JSNumber where
  | nan
  | val (n : Int)
  deriving DecidableEq, Repr

/-- Digits to integer value, most significant first. -/
def digitsToInt (ds : List Char) : Int :=
  ds.foldl (fun a c => a * 10 + ((c.toNat - '0'.toNat : Nat) : Int)) 0

/-- `Number.parseInt(s, 10)`: skip leading whitespace, take an optional
sign and the longest leading digit run; NaN if no digits. -/
def parseIntJS (s : String) : JSNumber :=
  let cs := s.toList.dropWhile (fun c => c = ' ' ∨ c = '\t' ∨ c = '\n' ∨ c = '\r')
  let signAndRest : Int × List Char :=
    match cs with
    | '-' :: r => (-1, r)
    | '+' :: r => (1, r)
    | r => (1, r)
  let ds := signAndRest.2.takeWhile Char.isDigit
  if ds = [] then JSNumber.nan else JSNumber.val (signAndRest.1 * digitsToInt ds)

/-- window-context.ts module initializer: `selectedWindowId = null`. -/
def initialSelectedWindow : Option Int := none

/-- window-context.ts `setSelectedWindow`: last-write-wins on the cell. -/
def setSelectedWindow (windowId : Option Int) (_old : Option Int) : Option Int :=
  windowId

/-- window-context.ts `clearSelectedWindow`. -/
def clearSelectedWindow (_old : Option Int) : Option Int :=
  none

/-- window-context.ts `getSelectedWindow`. -/
def getSelectedWindow (sel : Option Int) : Option Int :=
  sel

/-- window-context.ts `getEffectiveWindow`: the explicit parameter if
present (strings parsed with `Number.parseInt`), else the stored
selection (`selectedWindowId ?? undefined`). -/
def getEffectiveWindow (sel : Option Int) (explicitWindow : Option WindowParam) :
    Option JSNumber :=
  match explicitWindow with
  | some (WindowParam.str s) => some (parseIntJS s)
  | some (WindowParam.num n) => some (JSNumber.val n)
  | none => sel.map JSNumber.val

/-! ## Screenshot capture (actions/screenshot.ts) -/

/-- A window's on-screen region as reported by the backend. -/
structure Region where
  left : Int
  top : Int
  width : Int
  height : Int
  deriving DecidableEq, Repr

/-- Outcome of `handleScreenshot`: the reported
`display_width_px`/`display_height_px` pair (the pre-resize dimensions)
and which window region the image was cropped to (`none` = full screen).
The resize-and-compress post-processing is an external collaborator and
does not change the reported dimensions. -/
structure ScreenshotResult where
  displayWidth : Int
  displayHeight : Int
  croppedTo : Option Region
  deriving DecidableEq, Repr

/-- actions/screenshot.ts `handleScreenshot`: grab the full screen; if a
window is selected and its id is within the enumerated window list, crop
to it and report its dimensions; otherwise silently keep the full
screen.  A `none` result would model a crash (unguarded access to a
missing window), which the range guard prevents. -/
def handleScreenshot (sel : Option Int) (windows : List Region)
    (screenW screenH : Int) : Option ScreenshotResult :=
  match sel with
  | none => some { displayWidth := screenW, displayHeight := screenH, croppedTo := none }
  | some selectedWindowId =>
    if 0 ≤ selectedWindowId ∧ selectedWindowId < (windows.length : Int) then
      match windows.get? selectedWindowId.toNat with
      | some r => some { displayWidth := r.width, displayHeight := r.height, croppedTo := some r }
      | none => none
    else
      some { displayWidth := screenW, displayHeight := screenH, croppedTo := none }

/-! ## Window focus (io/system/windows-io.ts `handleFocus`) -/

/-- windows-io.ts `handleFocus`: enumerate windows, validate the explicit
target id, focus the target and answer with the stringified
`{success:true, windowId, title, message, selectedWindow}` object.  The
backend's window list is abstracted to its titles; the `focus()` side
effect itself is external. -/
def windowsHandleFocus (sel : Option Int) (titles : List String)
    (windowId : Int) : Except String ToolResponse :=
  match validateWindowId windowId titles.length with
  | .error e => .error e
  | .ok _ =>
    let title := titles.getD windowId.toNat ""
    .ok { content := [ContentItem.focusInfo windowId title (getSelectedWindow sel)] }

/-! ## Sequence engine (core/sequence-handler.ts) -/

/-- A sequence command (`SequenceCommand`): target IO class, action name,
parameter bag and the per-step capture flag. -/
structure SeqCommand where
  tool : String
  action : String
  params : ParamBag := []
  captureResult : Bool := false
  deriving DecidableEq, Repr

/-- The sequence tool's parameters (`SequenceParams`), with the source's
defaults.  `delayBetween` only delays execution and has no effect on the
computed values. -/
structure SequenceParams where
  window : Option JsonVal := none
  commands : List SeqCommand
  captureIntermediate : Bool := false
  stopOnError : Bool := true
  delayBetween : Nat := 0

/-- Per-step outcome (`CommandResult`): `response` is present exactly on
success, `error` exactly on failure. -/
structure SeqStepResult where
  command : SeqCommand
  success : Bool
  error : Option String := none
  response : Option ToolResponse := none
  deriving DecidableEq, Repr

/-- Projection of a step outcome to its summary entry
(`results.map((r) => ({command: {tool, action}, success, error}))`). -/
def toReport (r : SeqStepResult) : StepReport :=
  { tool := r.command.tool, action := r.command.action
    success := r.success, error := r.error }

/-- The execution environment the sequence engine and router run against:
the DI container's lookup behaviour and the registered IO classes'
`handleAction` methods, determinized.  `handleAction` additionally
receives the number of previously attempted steps, so that a stateful
backend (whose response can depend on how many calls preceded it) is
representable.  `resolveFails t` is true when the instance stored under
`t` is `undefined`, making `resolve` throw even though `has` is true. -/
structure SeqEnv where
  hasTool : String → Bool
  resolveFails : String → Bool
  isIOClass : String → Bool
  handleAction : Nat → String → String → ParamBag → Except String ToolResponse

/-- sequence-handler.ts lines 144-152: copy the command's params and merge
the shared window in only when the command has no own `window` key. -/
def mergeWindow (shared : Option JsonVal) (ps : ParamBag) : ParamBag :=
  match shared with
  | none => ps
  | some w => if ps.any (fun kv => kv.1 = "window") then ps else ps ++ [("window", w)]

/-- The body of the per-step `try` block (sequence-handler.ts lines
133-156): unknown tool and non-IO-class resolutions throw, a resolve of a
stored `undefined` throws, otherwise the IO class's `handleAction` runs
on the merged params. -/
def runStep (env : SeqEnv) (idx : Nat) (shared : Option JsonVal)
    (c : SeqCommand) : Except String ToolResponse :=
  if env.hasTool c.tool = false then
    .error ("Unknown tool: " ++ c.tool)
  else if env.resolveFails c.tool then
    .error ("No instance registered for key: " ++ c.tool)
  else if env.isIOClass c.tool = false then
    .error (c.tool ++ " is not a valid IO class")
  else
    env.handleAction idx c.tool c.action (mergeWindow shared c.params)

/-- The error-path terminal summary (sequence-handler.ts lines 180-198). -/
def mkErrorSummary (total : Nat) (results : List SeqStepResult)
    (errorMessage : String) : SeqSummary :=
  { status := "error"
    total := total
    executed := some results.length
    successful := (results.filter (fun r => r.success)).length
    failed := (results.filter (fun r => !r.success)).length
    errorMsg := some errorMessage
    results := results.map toReport }

/-- The post-loop finalization (sequence-handler.ts lines 207-241): when
not capturing intermediate results, append only the image content of the
final step's response when that final step succeeded; then append the
overall summary, whose status is `success` with zero failures and
`partial` otherwise. -/
def seqFinalize (captureIntermediate : Bool) (total : Nat)
    (results : List SeqStepResult) (allContent : List ContentItem) : ToolResponse :=
  let allContent2 :=
    if captureIntermediate = false ∧ 0 < results.length then
      match results.getLast? with
      | some finalResult =>
        match finalResult.success, finalResult.response with
        | true, some resp => allContent ++ resp.content.filter isImageItem
        | _, _ => allContent
      | none => allContent
    else allContent
  let successCount := (results.filter (fun r => r.success)).length
  let failureCount := (results.filter (fun r => !r.success)).length
  { content := allContent2 ++ [ContentItem.summary
      { status := if failureCount = 0 then "success" else "partial"
        total := total
        executed := none
        successful := successCount
        failed := failureCount
        errorMsg := none
        results := results.map toReport }] }

/-- The main loop of `executeSequence` (sequence-handler.ts lines 125-205),
with the accumulated per-step outcomes and captured content as explicit
accumulators.  On a step failure with `stopOnError`, the terminal error
record is emitted immediately and the remaining commands are not
touched. -/
def seqLoop (env : SeqEnv) (shared : Option JsonVal)
    (captureIntermediate stopOnError : Bool) (total : Nat) :
    List SeqCommand → List SeqStepResult → List ContentItem → ToolResponse
  | [], results, allContent => seqFinalize captureIntermediate total results allContent
  | c :: rest, results, allContent =>
    match runStep env results.length shared c with
    | .ok response =>
      let results2 := results ++ [{ command := c, success := true, response := some response }]
      let allContent2 :=
        if captureIntermediate || c.captureResult then allContent ++ response.content
        else allContent
      seqLoop env shared captureIntermediate stopOnError total rest results2 allContent2
    | .error errorMessage =>
      let results2 := results ++ [{ command := c, success := false, error := some errorMessage }]
      if stopOnError then
        { content := allContent ++ [ContentItem.summary (mkErrorSummary total results2 errorMessage)] }
      else
        seqLoop env shared captureIntermediate stopOnError total rest results2 allContent

/-- sequence-handler.ts `executeSequence`. -/
def executeSequence (env : SeqEnv) (p : SequenceParams) : ToolResponse :=
  seqLoop env p.window p.captureIntermediate p.stopOnError p.commands.length
    p.commands [] []

/-! ## Router (server.ts lines 56-88) -/

/-- The structured arguments of an inbound tool call: for the `sequence`
meta-tool the transport-parsed sequence parameters, for everything else a
raw parameter bag.  (The source performs an unchecked cast; the two
coercions below model that cast for the branch that actually consumes
the arguments.) -/
inductive ToolArgs where
  | seqArgs (p : SequenceParams)
  | rawArgs (ps : ParamBag)

/-- The unchecked `toolArgs as SequenceParams` cast (garbage in, garbage
out when the payload is not sequence-shaped). -/
def ToolArgs.asSeq : ToolArgs → SequenceParams
  | .seqArgs p => p
  | .rawArgs _ => { commands := [] }

/-- The raw parameter view of the arguments. -/
def ToolArgs.asRaw : ToolArgs → ParamBag
  | .seqArgs _ => []
  | .rawArgs ps => ps

/-- `String.prototype.indexOf` for a single character, as a position into
the character list (`none` models the `-1` result). -/
def indexOfChar (c : Char) : List Char → Option Nat
  | [] => none
  | d :: rest => if d = c then some 0 else (indexOfChar c rest).map (· + 1)

/-- The `CallToolRequestSchema` handler of server.ts: dispatch `sequence`
to the sequence engine, otherwise split the tool name at its first
underscore (`name.indexOf('_')` / `name.slice(0, underscore)`), look the
IO class up and forward.  There is no `try`/`catch` here: every `.error`
this function returns is an exception escaping to the caller of the
router. -/
def routeToolCall (env : SeqEnv) (name : String) (args : ToolArgs) :
    Except String ToolResponse :=
  if name = "sequence" then
    .ok (executeSequence env args.asSeq)
  else
    match indexOfChar '_' name.toList with
    | none => .error ("Invalid tool name: " ++ name)
    | some underscore =>
      let ioClassName := String.mk (name.toList.take underscore)
      if env.hasTool ioClassName = false then
        .error ("Unknown tool category: " ++ ioClassName)
      else if env.resolveFails ioClassName then
        .error ("No instance registered for key: " ++ ioClassName)
      else if env.isIOClass ioClassName = false then
        .error ("Invalid IO class: " ++ ioClassName)
      else
        env.handleAction 0 ioClassName name args.asRaw

/-- The `try`/`catch` boundary shared by the gamepad, keyboard,
screenshot, windows and autopress IO classes: run the dispatch body and
convert any thrown error into a structured failure result via
`createErrorResponse` (e.g. windows-io.ts lines 111-137). -/
def guardedHandleAction (body : Except String ToolResponse) (context : String) :
    ToolResponse :=
  match body with
  | .ok r => r
  | .error msg => createErrorResponse msg (some context)

/-- io/input/mouse-io.ts `MouseIO.handleAction` and its per-action
handlers: NO surrounding `try`/`catch`, so missing-parameter and
unknown-action errors are thrown to the router.  The screenshot taken
after each action and the backend cursor position are abstracted as
arguments. -/
def mouseHandleAction (shot : List ContentItem) (posX posY : Int)
    (action : String) (params : ParamBag) : Except String ToolResponse :=
  if action = "mouse_move" then
    match getParam params "coordinate" with
    | some (JsonVal.pair x y) =>
      .ok { content := [ContentItem.text
              ("Moved cursor to: (" ++ toString x ++ ", " ++ toString y ++ ")")] ++ shot }
    | _ => .error "coordinate is required for mouse_move"
  else if action = "mouse_click" then
    let button := match getParam params "button" with
      | some (JsonVal.str b) => b
      | _ => "left"
    let buttonText := if button = "double" then "Double clicked" else button ++ " clicked"
    .ok { content := [ContentItem.text buttonText] ++ shot }
  else if action = "mouse_drag" then
    match getParam params "coordinate" with
    | some (JsonVal.pair x y) =>
      .ok { content := [ContentItem.text
              ("Dragged to: (" ++ toString x ++ ", " ++ toString y ++ ")")] ++ shot }
    | _ => .error "coordinate is required for mouse_drag"
  else if action = "mouse_double_click" then
    .ok { content := [ContentItem.text "Double clicked"] ++ shot }
  else if action = "mouse_right_click" then
    .ok { content := [ContentItem.text "Right clicked"] ++ shot }
  else if action = "mouse_middle_click" then
    .ok { content := [ContentItem.text "Middle clicked"] ++ shot }
  else if action = "mouse_position" then
    .ok { content := [ContentItem.text
            ("\x7bx: " ++ toString posX ++ ", y: " ++ toString posY ++ "\x7d")] }
  else
    .error ("Unknown mouse action: " ++ action)

/-! ## Autopress engine (services/autopress-service.ts)

The Node runtime's timer bookkeeping is made explicit: `setInterval`
registers a callback closure under a fresh timer id and schedules it;
`clearInterval` synchronously removes the timer from the schedule.  A
tick for timer `t` can fire only while `t` is scheduled, and it executes
the command list captured by the closure at creation time.  Service
operations and ticks interleave as events of a single logical thread. -/

/-- autopress-service.ts `AutopressCommand`. -/
structure APCommand where
  ioClass : String
  action : String
  params : ParamBag
  deriving DecidableEq, Repr

/-- autopress-service.ts `AutopressConfig`. -/
structure APConfig where
  id : String
  commands : List APCommand
  interval : Nat
  deriving DecidableEq, Repr

/-- The service state together with the runtime's timer bookkeeping:
`entries` is the `autopresses` map (id, interval-timer id, config, in
insertion order), `live` the runtime's set of scheduled interval timers,
`callbacks` the closures registered by `setInterval` (never erased: a
closure exists as long as it is referenced, but fires only while
scheduled), `next` the next fresh timer id, `executorSet` whether
`setCommandExecutor` has been called. -/
structure APState where
  entries : List (String × Nat × APConfig)
  live : List Nat
  callbacks : List (Nat × String × APConfig)
  next : Nat
  executorSet : Bool
  deriving DecidableEq, Repr

/-- The state right after construction (plus an executor installed during
server initialization when `executorSet` is true). -/
def apInitial (executorSet : Bool) : APState :=
  { entries := [], live := [], callbacks := [], next := 0, executorSet := executorSet }

/-- `Map.get` on the autopresses map. -/
def apLookup : List (String × Nat × APConfig) → String → Option (Nat × APConfig)
  | [], _ => none
  | (k, v) :: rest, id => if k = id then some v else apLookup rest id

/-- `Map.delete` on the autopresses map: removes the binding (unique under
the map invariant). -/
def apErase : List (String × Nat × APConfig) → String → List (String × Nat × APConfig)
  | [], _ => []
  | (k, v) :: rest, id => if k = id then rest else (k, v) :: apErase rest id

/-- Look up the creation-time closure of a timer. -/
def cbLookup : List (Nat × String × APConfig) → Nat → Option (String × APConfig)
  | [], _ => none
  | (t, v) :: rest, tid => if t = tid then some v else cbLookup rest tid

/-- autopress-service.ts `stop`: `clearInterval` the entry's timer and
delete the entry; report whether it was found. -/
def apStop (s : APState) (id : String) : Bool × APState :=
  match apLookup s.entries id with
  | none => (false, s)
  | some (tid, _) =>
    (true, { s with entries := apErase s.entries id, live := s.live.erase tid })

/-- autopress-service.ts `stopAll`: `clearInterval` every entry's timer,
clear the map, return how many entries there were. -/
def apStopAll (s : APState) : Nat × APState :=
  (s.entries.length,
    { s with entries := [],
             live := s.entries.foldl (fun l e => l.erase e.2.1) s.live })

/-- The mutating body of `start` (autopress-service.ts lines 85-100): stop
any existing entry with the same id, then create a fresh recurring timer
whose closure captures the config and store the entry. -/
def apStartBase (s : APState) (config : APConfig) : APState :=
  let s1 := if (apLookup s.entries config.id).isSome then (apStop s config.id).2 else s
  { entries := s1.entries ++ [(config.id, s1.next, config)]
    live := s1.live ++ [s1.next]
    callbacks := s1.callbacks ++ [(s1.next, config.id, config)]
    next := s1.next + 1
    executorSet := s1.executorSet }

/-- `!config.id || config.id.trim() === ''`: the id is empty or consists
only of whitespace. -/
def isBlankId (s : String) : Bool :=
  s.toList.all (fun c => c = ' ' ∨ c = '\t' ∨ c = '\n' ∨ c = '\r')

/-- autopress-service.ts `start`: validate, then run the mutating body.
Validation throws before any mutation, so a thrown `start` leaves the
state unchanged. -/
def apStart (s : APState) (config : APConfig) : Except String APState :=
  if isBlankId config.id then
    .error "Autopress ID is required"
  else if config.commands = [] then
    .error "At least one command is required"
  else if config.interval < 10 then
    .error "Interval must be at least 10ms"
  else if s.executorSet = false then
    .error "Command executor not set. Server initialization error."
  else
    .ok (apStartBase s config)

/-- autopress-service.ts `getActiveIds`. -/
def apActiveIds (s : APState) : List String :=
  s.entries.map Prod.fst

/-- One event of the single logical dispatcher thread: a service call or
the runtime firing the scheduled timer `t`. -/
inductive APEvent where
  | startE (config : APConfig)
  | stopE (id : String)
  | stopAllE
  | tickE (t : Nat)
  deriving DecidableEq, Repr

/-- Whether an event is a (re)start for the given autopress id. -/
def isStartFor (x : String) : APEvent → Bool
  | .startE config => config.id = x
  | _ => false

/-- The state transition of one event.  A tick's command execution only
touches the external backend (each command failure is caught and logged
inside `executeSequence` of the service), so it leaves the service state
unchanged; a throwing `start` also leaves it unchanged. -/
def apStep (s : APState) : APEvent → APState
  | .startE config =>
    match apStart s config with
    | .ok s2 => s2
    | .error _ => s
  | .stopE id => (apStop s id).2
  | .stopAllE => (apStopAll s).2
  | .tickE _ => s

/-- What a tick event executes: timer `t` fires only while scheduled, and
then runs its creation-time closure (the autopress id and config captured
by `setInterval`'s callback). -/
def tickFires (s : APState) (e : APEvent) : Option (String × APConfig) :=
  match e with
  | .tickE t => if t ∈ s.live then cbLookup s.callbacks t else none
  | _ => none

/-- Run a whole event trace. -/
def runTrace (s : APState) : List APEvent → APState
  | [] => s
  | e :: es => runTrace (apStep s e) es

/-- All (autopress id, config) executions fired by ticks along a trace. -/
def traceFires (s : APState) : List APEvent → List (String × APConfig)
  | [] => []
  | e :: es =>
    (match tickFires s e with
     | some f => [f]
     | none => []) ++ traceFires (apStep s e) es

/-- Reachable-state invariant of the service plus timer runtime: timer ids
are fresh and unique, the map's keys are unique, scheduled timers are
exactly backed by current entries, and every entry's timer still maps to
the closure created for it. -/
structure APInv (s : APState) : Prop where
  liveLt : ∀ t ∈ s.live, t < s.next
  entryLt : ∀ e ∈ s.entries, e.2.1 < s.next
  cbLt : ∀ p ∈ s.callbacks, p.1 < s.next
  liveNodup : s.live.Nodup
  idsNodup : (s.entries.map Prod.fst).Nodup
  tidsNodup : (s.entries.map (fun e => e.2.1)).Nodup
  liveOwned : ∀ t ∈ s.live, ∃ e ∈ s.entries, e.2.1 = t
  entryCb : ∀ e ∈ s.entries, cbLookup s.callbacks e.2.1 = some (e.1, e.2.2)

/-- After cancellation of `x`: every still-scheduled timer whose closure
belongs to autopress id `x` (there are none when `o = none`) carries the
config `o`.  With `o = none` this says no tick for `x` can fire; with
`o = some cfg` that any tick for `x` runs exactly `cfg`. -/
def ticksOnly (x : String) (o : Option APConfig) (s : APState) : Prop :=
  ∀ t ∈ s.live, ∀ cfg, cbLookup s.callbacks t = some (x, cfg) → o = some cfg

/-! ## Small lemmas -/

theorem diGet_diSet_self (m : DIMap) (k : String) (v : JsValue) :
    diGet (diSet m k v) k = some v := by
  induction m with
  | nil => simp [diSet, diGet]
  | cons hd tl ih =>
    obtain ⟨k1, v1⟩ := hd
    by_cases h : k1 = k
    · subst h
      simp [diSet, diGet]
    · simp [diSet, diGet, h, ih]

/-! ## Claim theorems: container, targeting context, screenshot, focus -/

/-- Claim C9: `DIContainer.resolve(k)` throws exactly when the value the
map yields for `k` is `undefined`; since `register` stores
unconditionally, registering `undefined` gives a state where `has` is
true yet `resolve` throws. -/
theorem di_resolve_undefined (m : DIMap) (k : String) :
    (exceptFailed (diResolve m k) = true ↔ (diGet m k).getD JsValue.undef = JsValue.undef)
    ∧ diHas (diRegister m k JsValue.undef) k = true
    ∧ exceptFailed (diResolve (diRegister m k JsValue.undef) k) = true := by
  refine ⟨?_, ?_, ?_⟩
  · by_cases h : (diGet m k).getD JsValue.undef = JsValue.undef <;>
      simp [diResolve, h, exceptFailed]
  · simp [diHas, diRegister, diGet_diSet_self]
  · simp [diResolve, diRegister, diGet_diSet_self, exceptFailed]

/-- Claim C8: the effective target is the explicit value whenever one is
present (numeric explicit ids are returned verbatim, and the stored
selection is never consulted); with no explicit value it is the stored
selection, or none when the selection was never set or was cleared. -/
theorem effective_target_law (s s2 : Option Int) (n : Int) (e : WindowParam) :
    getEffectiveWindow s (some (WindowParam.num n)) = some (JSNumber.val n)
    ∧ getEffectiveWindow s (some e) = getEffectiveWindow s2 (some e)
    ∧ getEffectiveWindow s none = s.map JSNumber.val
    ∧ getEffectiveWindow (clearSelectedWindow s) none = none
    ∧ getEffectiveWindow initialSelectedWindow none = none := by
  refine ⟨rfl, ?_, rfl, rfl, rfl⟩
  cases e <;> rfl

/-- Claim C10: a stored window selection that is out of range of the
enumerated windows does not make `handleScreenshot` fail: the crop is
silently skipped and the result is the full screen with the full-screen
dimensions, identical to the no-selection result. -/
theorem screenshot_skips_invalid_selection (sel : Option Int) (windows : List Region)
    (screenW screenH : Int) (i : Int) (hsel : sel = some i)
    (hout : i < 0 ∨ (windows.length : Int) ≤ i) :
    handleScreenshot sel windows screenW screenH =
      some { displayWidth := screenW, displayHeight := screenH, croppedTo := none }
    ∧ handleScreenshot sel windows screenW screenH =
        handleScreenshot none windows screenW screenH := by
  subst hsel
  have hcond : ¬ (0 ≤ i ∧ i < (windows.length : Int)) := by omega
  simp [handleScreenshot, hcond]

/-- Witness for C10 at a concrete out-of-range selection. -/
theorem screenshot_skips_invalid_selection_witness :
    handleScreenshot (some 5) [{ left := 0, top := 0, width := 100, height := 100 }] 1366 768 =
      some { displayWidth := 1366, displayHeight := 768, croppedTo := none } :=
  (screenshot_skips_invalid_selection (some 5)
    [{ left := 0, top := 0, width := 100, height := 100 }] 1366 768 5 rfl
    (Or.inr (by norm_num))).1

/-- Claim C7: invoking the focus operation with an explicit target id `t`
against `n` enumerated windows throws the invalid-target error iff
`t < 0` or `t ≥ n`, and every such error message ends by listing the
valid range `0` to `n-1`. -/
theorem invalid_target_iff (sel : Option Int) (titles : List String) (t : Int) :
    (exceptFailed (windowsHandleFocus sel titles t) = true
      ↔ (t < 0 ∨ (titles.length : Int) ≤ t))
    ∧ (∀ e : String, windowsHandleFocus sel titles t = .error e →
        ∃ pre, e = pre ++ validRangeNote titles.length) := by
  by_cases h1 : t < 0
  · constructor
    · simp [windowsHandleFocus, validateWindowId, h1, exceptFailed]
    · intro e he
      simp only [windowsHandleFocus, validateWindowId, if_pos h1] at he
      exact ⟨_, (Except.error.injEq _ _ ▸ he).symm⟩
  · by_cases h2 : (titles.length : Int) ≤ t
    · constructor
      · simp [windowsHandleFocus, validateWindowId, h1, h2, exceptFailed]
      · intro e he
        simp only [windowsHandleFocus, validateWindowId, if_neg h1, if_pos h2] at he
        exact ⟨_, (Except.error.injEq _ _ ▸ he).symm⟩
    · constructor
      · simp [windowsHandleFocus, validateWindowId, h1, h2, exceptFailed]
      · intro e he
        simp [windowsHandleFocus, validateWindowId, h1, h2] at he

/-- Decidable equality for thrown-vs-returned outcomes. -/
instance exceptDecEq {e a : Type} [DecidableEq e] [DecidableEq a] :
    DecidableEq (Except e a)
  | .ok x, .ok y =>
    if h : x = y then .isTrue (by rw [h]) else .isFalse (by simp [h])
  | .error x, .error y =>
    if h : x = y then .isTrue (by rw [h]) else .isFalse (by simp [h])
  | .ok _, .error _ => .isFalse (by simp)
  | .error _, .ok _ => .isFalse (by simp)

/-- Witness for C7: two windows, explicit target 5. -/
theorem invalid_target_iff_witness :
    exceptFailed (windowsHandleFocus none ["a", "b"] 5) = true
    ∧ ∃ pre,
        ("Invalid window ID: 5. Window ID exceeds available windows (2 windows found). " ++
          validRangeNote 2) = pre ++ validRangeNote 2 := by
  refine ⟨(invalid_target_iff none ["a", "b"] 5).1.mpr (Or.inr (by norm_num)), ?_⟩
  exact (invalid_target_iff none ["a", "b"] 5).2 _ (by decide)

/-! ## Claim C1: error propagation at the call boundaries -/

/-- A concrete environment holding only the mouse IO class, whose
`handleAction` is the uncaught dispatch of mouse-io.ts. -/
def mouseEnv : SeqEnv :=
  { hasTool := fun t => t = "mouse"
    resolveFails := fun _ => false
    isIOClass := fun _ => true
    handleAction := fun _ _tool action ps =>
      mouseHandleAction [ContentItem.image "shot"] 0 0 action ps }

/-- Counterexample to claim C1 as stated: the inbound call
(`mouse`, `mouse_move`, `{}`) makes `MouseIO.handleAction` throw
`coordinate is required for mouse_move`, and the router's
`CallToolRequestSchema` handler has no catch, so the exception escapes to
the caller instead of becoming a `success:false` result. -/
theorem router_lets_exception_escape :
    mouseHandleAction [ContentItem.image "shot"] 0 0 "mouse_move" [] =
      Except.error "coordinate is required for mouse_move"
    ∧ routeToolCall mouseEnv "mouse_move" (ToolArgs.rawArgs []) =
        Except.error "coordinate is required for mouse_move" := by
  constructor
  · rfl
  · decide

/-- Claim C1 (amended): errors are converted into structured failure
results at the Sequence-Engine boundary (the `sequence` route always
returns a result object, never a thrown error) and at the IO-class
`try`/`catch` boundaries that wrap their dispatch in
`createErrorResponse`, which produces `success:false` with populated
error fields; the Router-level handler itself performs no such
conversion (see the counterexample). -/
theorem error_conversion_boundaries (env : SeqEnv) (p : SequenceParams)
    (msg context : String) :
    routeToolCall env "sequence" (ToolArgs.seqArgs p) = .ok (executeSequence env p)
    ∧ guardedHandleAction (.error msg) context = createErrorResponse msg (some context)
    ∧ (createErrorResponse msg (some context)).isError = true
    ∧ (createErrorResponse msg (some context)).content =
        [ContentItem.errorJson "Error" msg (some context)] := by
  refine ⟨?_, rfl, rfl, rfl⟩
  simp [routeToolCall, ToolArgs.asSeq]

/-! ## Sequence engine lemmas -/

theorem exceptOk_exists {α : Type} {x : Except String α} (h : exceptOk x = true) :
    ∃ r, x = Except.ok r := by
  cases x with
  | ok r => exact ⟨r, rfl⟩
  | error e => simp [exceptOk] at h

/-- The success-path step report of a command. -/
def okReport (c : SeqCommand) : StepReport :=
  { tool := c.tool, action := c.action, success := true, error := none }

/-- The failure step report of a command. -/
def failReport (c : SeqCommand) (msg : String) : StepReport :=
  { tool := c.tool, action := c.action, success := false, error := some msg }

/-- The step outcome recorded for a successful step. -/
def okStep (c : SeqCommand) (r : ToolResponse) : SeqStepResult :=
  { command := c, success := true, response := some r }

/-- The step outcome recorded for a failing step. -/
def failStep (c : SeqCommand) (msg : String) : SeqStepResult :=
  { command := c, success := false, error := some msg }

/-- With `stopOnError` set, a run whose first `pre.length` steps succeed
and whose next step throws ends at that step with the terminal error
record; the commands after the failing one play no role. -/
theorem seqLoop_err (env : SeqEnv) (shared : Option JsonVal) (ci : Bool)
    (total : Nat) (cfail : SeqCommand) (msg : String) :
    ∀ (pre post : List SeqCommand) (results : List SeqStepResult)
      (allContent : List ContentItem),
      (∀ j (h : j < pre.length),
        exceptOk (runStep env (results.length + j) shared (pre.get ⟨j, h⟩)) = true) →
      runStep env (results.length + pre.length) shared cfail = Except.error msg →
      ∃ AC S,
        seqLoop env shared ci true total (pre ++ cfail :: post) results allContent =
          { content := AC ++ [ContentItem.summary S] }
        ∧ S.status = "error"
        ∧ S.executed = some (results.length + pre.length + 1)
        ∧ S.total = total
        ∧ S.errorMsg = some msg
        ∧ S.results = results.map toReport ++ pre.map okReport ++ [failReport cfail msg] := by
  intro pre
  induction pre with
  | nil =>
    intro post results allContent _hpre hfail
    simp only [List.length_nil, Nat.add_zero] at hfail
    refine ⟨allContent,
      mkErrorSummary total (results ++ [failStep cfail msg]) msg, ?_, rfl, ?_, rfl, rfl, ?_⟩
    · simp [seqLoop, hfail, failStep]
    · simp [mkErrorSummary]
    · simp [mkErrorSummary, toReport, failReport, failStep]
  | cons c pre ih =>
    intro post results allContent hpre hfail
    have h0 : exceptOk (runStep env results.length shared c) = true := by
      have := hpre 0 (by simp)
      simpa using this
    obtain ⟨r, hr⟩ := exceptOk_exists h0
    have hlen : (results ++ [okStep c r]).length = results.length + 1 := by
      simp
    have hpre2 : ∀ j (h : j < pre.length),
        exceptOk (runStep env ((results ++ [okStep c r]).length + j) shared
          (pre.get ⟨j, h⟩)) = true := by
      intro j hj
      rw [hlen]
      have h1 := hpre (j + 1) (by simpa using Nat.succ_lt_succ hj)
      have harith : results.length + (j + 1) = results.length + 1 + j := by omega
      rw [harith] at h1
      simpa using h1
    have hfail2 : runStep env ((results ++ [okStep c r]).length + pre.length) shared cfail =
        Except.error msg := by
      rw [hlen]
      have harith : results.length + (c :: pre).length = results.length + 1 + pre.length := by
        simp only [List.length_cons]
        omega
      rwa [harith] at hfail
    obtain ⟨AC, S, hout, hst, hex, htot, herr, hres⟩ := ih post
      (results ++ [okStep c r])
      (if ci || c.captureResult then allContent ++ r.content else allContent)
      hpre2 hfail2
    refine ⟨AC, S, ?_, hst, ?_, htot, herr, ?_⟩
    · simpa only [List.cons_append, seqLoop, hr, okStep] using hout
    · rw [hex, hlen]
      congr 1
      simp only [List.length_cons]
      omega
    · rw [hres]
      simp [toReport, okReport, okStep]

/-- Companion to `seqLoop_err`: the run's outcome does not depend on what
the commands after the failing step are. -/
theorem seqLoop_err_post_irrelevant (env : SeqEnv) (shared : Option JsonVal) (ci : Bool)
    (total : Nat) (cfail : SeqCommand) (msg : String) :
    ∀ (pre post post2 : List SeqCommand) (results : List SeqStepResult)
      (allContent : List ContentItem),
      (∀ j (h : j < pre.length),
        exceptOk (runStep env (results.length + j) shared (pre.get ⟨j, h⟩)) = true) →
      runStep env (results.length + pre.length) shared cfail = Except.error msg →
      seqLoop env shared ci true total (pre ++ cfail :: post) results allContent =
        seqLoop env shared ci true total (pre ++ cfail :: post2) results allContent := by
  intro pre
  induction pre with
  | nil =>
    intro post post2 results allContent _hpre hfail
    simp only [List.length_nil, Nat.add_zero] at hfail
    simp [seqLoop, hfail]
  | cons c pre ih =>
    intro post post2 results allContent hpre hfail
    have h0 : exceptOk (runStep env results.length shared c) = true := by
      have := hpre 0 (by simp)
      simpa using this
    obtain ⟨r, hr⟩ := exceptOk_exists h0
    have hlen : (results ++ [okStep c r]).length = results.length + 1 := by
      simp
    have hpre2 : ∀ j (h : j < pre.length),
        exceptOk (runStep env ((results ++ [okStep c r]).length + j) shared
          (pre.get ⟨j, h⟩)) = true := by
      intro j hj
      rw [hlen]
      have h1 := hpre (j + 1) (by simpa using Nat.succ_lt_succ hj)
      have harith : results.length + (j + 1) = results.length + 1 + j := by omega
      rw [harith] at h1
      simpa using h1
    have hfail2 : runStep env ((results ++ [okStep c r]).length + pre.length) shared cfail =
        Except.error msg := by
      rw [hlen]
      have harith : results.length + (c :: pre).length = results.length + 1 + pre.length := by
        simp only [List.length_cons]
        omega
      rwa [harith] at hfail
    simp only [List.cons_append, seqLoop, hr]
    exact ih post post2 _ _ hpre2 hfail2

/-- Claim C2: with `stopOnError = true`, execution stops at the first
failing step: the terminal record has status `"error"`, its `executed`
count equals the number of steps attempted (the successful prefix plus
the failing step), its per-step list covers exactly those steps, and the
commands after the failure point are never attempted (any same-length
replacement of them leaves the run's outcome unchanged). -/
theorem seq_stop_on_error_short_circuit (env : SeqEnv) (shared : Option JsonVal)
    (ci : Bool) (d : Nat) (pre post : List SeqCommand) (cfail : SeqCommand) (msg : String)
    (hpre : ∀ j (h : j < pre.length),
      exceptOk (runStep env j shared (pre.get ⟨j, h⟩)) = true)
    (hfail : runStep env pre.length shared cfail = Except.error msg) :
    (∃ AC S,
      executeSequence env
          { window := shared, commands := pre ++ cfail :: post,
            captureIntermediate := ci, stopOnError := true, delayBetween := d } =
        { content := AC ++ [ContentItem.summary S] }
      ∧ S.status = "error"
      ∧ S.executed = some (pre.length + 1)
      ∧ S.results = pre.map okReport ++ [failReport cfail msg])
    ∧ (∀ post2 : List SeqCommand, post2.length = post.length →
        executeSequence env
            { window := shared, commands := pre ++ cfail :: post2,
              captureIntermediate := ci, stopOnError := true, delayBetween := d } =
          executeSequence env
            { window := shared, commands := pre ++ cfail :: post,
              captureIntermediate := ci, stopOnError := true, delayBetween := d }) := by
  constructor
  · obtain ⟨AC, S, hout, hst, hex, _htot, _herr, hres⟩ :=
      seqLoop_err env shared ci (pre ++ cfail :: post).length cfail msg pre post [] []
        (by simpa using hpre) (by simpa using hfail)
    exact ⟨AC, S, hout, hst, by simpa using hex, by simpa using hres⟩
  · intro post2 hlen
    show seqLoop env shared ci true (pre ++ cfail :: post2).length (pre ++ cfail :: post2) [] [] = _
    have htot : (pre ++ cfail :: post2).length = (pre ++ cfail :: post).length := by
      simp [hlen]
    rw [htot]
    exact seqLoop_err_post_irrelevant env shared ci (pre ++ cfail :: post).length cfail msg
      pre post2 post [] [] (by simpa using hpre) (by simpa using hfail)

/-- Environment for the sequence witnesses: tool `"t"`, action `"fail"`
throws, anything else succeeds with a text item. -/
def seqWitEnv : SeqEnv :=
  { hasTool := fun t => t = "t"
    resolveFails := fun _ => false
    isIOClass := fun _ => true
    handleAction := fun _ _tool action _ps =>
      if action = "fail" then Except.error "boom"
      else Except.ok { content := [ContentItem.text "ok"] } }

/-- Witness for C2 on the spec's own example shape `[ok, fail, ok]`:
`executed = 2` and status `"error"`, and swapping the never-attempted
third command changes nothing. -/
theorem seq_stop_on_error_short_circuit_witness :
    (∃ AC S,
      executeSequence seqWitEnv
          { window := none,
            commands := [{ tool := "t", action := "go" }, { tool := "t", action := "fail" },
              { tool := "t", action := "go" }],
            captureIntermediate := false, stopOnError := true, delayBetween := 0 } =
        { content := AC ++ [ContentItem.summary S] }
      ∧ S.status = "error"
      ∧ S.executed = some 2
      ∧ S.results = [{ tool := "t", action := "go", success := true, error := none },
          { tool := "t", action := "fail", success := false, error := some "boom" }]) := by
  obtain ⟨h1, _h2⟩ := seq_stop_on_error_short_circuit seqWitEnv none false 0
    [{ tool := "t", action := "go" }] [{ tool := "t", action := "go" }]
    { tool := "t", action := "fail" } "boom" (by decide) (by decide)
  obtain ⟨AC, S, hout, hst, hex, hres⟩ := h1
  exact ⟨AC, S, hout, hst, by simpa using hex, by simpa [okReport, failReport] using hres⟩

/-- A run whose steps all succeed processes every command and hands the
accumulated all-success outcome list to the finalization step. -/
theorem seqLoop_all_ok (env : SeqEnv) (shared : Option JsonVal) (ci so : Bool)
    (total : Nat) :
    ∀ (cmds : List SeqCommand) (results : List SeqStepResult)
      (allContent : List ContentItem),
      (∀ j (h : j < cmds.length),
        exceptOk (runStep env (results.length + j) shared (cmds.get ⟨j, h⟩)) = true) →
      ∃ RS AC,
        seqLoop env shared ci so total cmds results allContent =
          seqFinalize ci total (results ++ RS) AC
        ∧ RS.map toReport = cmds.map okReport
        ∧ ∀ r ∈ RS, r.success = true := by
  intro cmds
  induction cmds with
  | nil =>
    intro results allContent _h
    exact ⟨[], allContent, by simp [seqLoop], by simp, by simp⟩
  | cons c rest ih =>
    intro results allContent hall
    have h0 : exceptOk (runStep env results.length shared c) = true := by
      have := hall 0 (by simp)
      simpa using this
    obtain ⟨r, hr⟩ := exceptOk_exists h0
    have hall2 : ∀ j (h : j < rest.length),
        exceptOk (runStep env ((results ++ [okStep c r]).length + j) shared
          (rest.get ⟨j, h⟩)) = true := by
      intro j hj
      have h1 := hall (j + 1) (by simpa using Nat.succ_lt_succ hj)
      have harith : results.length + (j + 1) = (results ++ [okStep c r]).length + j := by
        simp
        omega
      rw [harith] at h1
      simpa using h1
    obtain ⟨RS, AC, hout, hmap, hsucc⟩ := ih (results ++ [okStep c r])
      (if ci || c.captureResult then allContent ++ r.content else allContent) hall2
    refine ⟨okStep c r :: RS, AC, ?_, ?_, ?_⟩
    · simp only [seqLoop, hr]
      refine hout.trans ?_
      congr 1
      simp
    · rw [List.map_cons, List.map_cons, hmap]
      rfl
    · intro x hx
      rcases List.mem_cons.mp hx with hx | hx
      · rw [hx]
        rfl
      · exact hsucc x hx

/-- The finalization step always ends the content with the overall
summary, whose fields are those of sequence-handler.ts lines 217-241. -/
theorem seqFinalize_summary (ci : Bool) (total : Nat) (results : List SeqStepResult)
    (AC : List ContentItem) :
    ∃ AC2, seqFinalize ci total results AC =
      { content := AC2 ++ [ContentItem.summary
        { status := if (results.filter (fun r => !r.success)).length = 0
            then "success" else "partial"
          total := total
          executed := none
          successful := (results.filter (fun r => r.success)).length
          failed := (results.filter (fun r => !r.success)).length
          errorMsg := none
          results := results.map toReport }] } :=
  ⟨_, rfl⟩

/-- With `stopOnError = true`, the terminal summary's status is either
`"error"` (a step failed) or `"success"`; `"partial"` is unreachable. -/
theorem seqLoop_true_terminal (env : SeqEnv) (shared : Option JsonVal) (ci : Bool)
    (total : Nat) :
    ∀ (cmds : List SeqCommand) (results : List SeqStepResult)
      (allContent : List ContentItem),
      (∀ r ∈ results, r.success = true) →
      ∃ AC S,
        seqLoop env shared ci true total cmds results allContent =
          { content := AC ++ [ContentItem.summary S] }
        ∧ (S.status = "error" ∨ S.status = "success") := by
  intro cmds
  induction cmds with
  | nil =>
    intro results allContent hall
    obtain ⟨AC2, heq⟩ := seqFinalize_summary ci total results allContent
    refine ⟨AC2, _, heq, ?_⟩
    right
    have hnil : results.filter (fun r => !r.success) = [] := by
      refine List.filter_eq_nil_iff.mpr ?_
      intro a ha
      simp [hall a ha]
    show (if (results.filter (fun r => !r.success)).length = 0
        then "success" else "partial") = "success"
    rw [hnil]
    simp
  | cons c rest ih =>
    intro results allContent hall
    cases hstep : runStep env results.length shared c with
    | ok r =>
      have hall2 : ∀ x ∈ results ++ [okStep c r], x.success = true := by
        intro x hx
        rcases List.mem_append.mp hx with hx | hx
        · exact hall x hx
        · rw [List.mem_singleton.mp hx]
          rfl
      obtain ⟨AC, S, hout, hstat⟩ := ih (results ++ [okStep c r])
        (if ci || c.captureResult then allContent ++ r.content else allContent) hall2
      refine ⟨AC, S, ?_, hstat⟩
      simp only [seqLoop, hstep]
      exact hout
    | error msg =>
      refine ⟨allContent, mkErrorSummary total (results ++ [failStep c msg]) msg, ?_,
        Or.inl rfl⟩
      simp [seqLoop, hstep, failStep]

/-- Claim C6: a sequence of all-succeeding steps run with
`stopOnError = true` always records `executed = n` attempted steps,
`failed = 0` and status `"success"`; and with `stopOnError = true` the
terminal status is never `"partial"` (that status requires
`stopOnError = false`). -/
theorem seq_all_success_record (env : SeqEnv) (shared : Option JsonVal) (ci : Bool)
    (d : Nat) (cmds : List SeqCommand)
    (hall : ∀ j (h : j < cmds.length),
      exceptOk (runStep env j shared (cmds.get ⟨j, h⟩)) = true) :
    (∃ AC S,
      executeSequence env
          { window := shared, commands := cmds, captureIntermediate := ci,
            stopOnError := true, delayBetween := d } =
        { content := AC ++ [ContentItem.summary S] }
      ∧ S.status = "success" ∧ S.failed = 0 ∧ S.successful = cmds.length
      ∧ S.executedSteps = cmds.length ∧ S.total = cmds.length)
    ∧ (∀ (env2 : SeqEnv) (p : SequenceParams), p.stopOnError = true →
        ∃ AC S, executeSequence env2 p = { content := AC ++ [ContentItem.summary S] }
          ∧ (S.status = "error" ∨ S.status = "success")) := by
  constructor
  · obtain ⟨RS, AC, hout, hmap, hsucc⟩ :=
      seqLoop_all_ok env shared ci true cmds.length cmds [] [] (by simpa using hall)
    obtain ⟨AC2, heq⟩ := seqFinalize_summary ci cmds.length ([] ++ RS) AC
    have hfilterfail : RS.filter (fun r => !r.success) = [] := by
      refine List.filter_eq_nil_iff.mpr ?_
      intro a ha
      simp [hsucc a ha]
    have hfilterok : RS.filter (fun r => r.success) = RS := by
      rw [List.filter_eq_self]
      intro a ha
      simp [hsucc a ha]
    have hlenRS : RS.length = cmds.length := by
      have := congrArg List.length hmap
      simpa using this
    have heq2 : seqFinalize ci cmds.length ([] ++ RS) AC =
        { content := AC2 ++ [ContentItem.summary
          { status := "success", total := cmds.length, executed := none,
            successful := RS.length, failed := 0, errorMsg := none,
            results := RS.map toReport }] } := by
      rw [heq]
      simp [hfilterfail, hfilterok]
    refine ⟨AC2, _, hout.trans heq2, rfl, rfl, hlenRS, ?_, rfl⟩
    simp [SeqSummary.executedSteps, hlenRS]
  · intro env2 p hso
    obtain ⟨AC, S, hout, hstat⟩ :=
      seqLoop_true_terminal env2 p.window p.captureIntermediate p.commands.length
        p.commands [] [] (by simp)
    refine ⟨AC, S, ?_, hstat⟩
    rw [show executeSequence env2 p =
      seqLoop env2 p.window p.captureIntermediate p.stopOnError p.commands.length
        p.commands [] [] from rfl, hso]
    exact hout

/-- Witness for C6: two all-succeeding steps give `executed = 2`,
`failed = 0`, status `"success"`. -/
theorem seq_all_success_record_witness :
    ∃ AC S,
      executeSequence seqWitEnv
          { window := none,
            commands := [{ tool := "t", action := "go" }, { tool := "t", action := "go2" }],
            captureIntermediate := false, stopOnError := true, delayBetween := 0 } =
        { content := AC ++ [ContentItem.summary S] }
      ∧ S.status = "success" ∧ S.failed = 0 ∧ S.successful = 2
      ∧ S.executedSteps = 2 ∧ S.total = 2 := by
  obtain ⟨h1, _h2⟩ := seq_all_success_record seqWitEnv none false 0
    [{ tool := "t", action := "go" }, { tool := "t", action := "go2" }] (by decide)
  obtain ⟨AC, S, hout, hst, hf, hsucc, hex, htot⟩ := h1
  exact ⟨AC, S, hout, hst, hf, by simpa using hsucc, by simpa using hex, by simpa using htot⟩

/-! ## Claim C5: which snapshot is appended after a completed loop -/

/-- The image portion of a step outcome: the response's image items on
success, nothing on a thrown error. -/
def imagesOfOutcome : Except String ToolResponse → List ContentItem
  | .ok r => r.content.filter isImageItem
  | .error _ => []

theorem filter_images_idem (l : List ContentItem) :
    (l.filter isImageItem).filter isImageItem = l.filter isImageItem := by
  rw [List.filter_filter]
  simp

/-- Sequence environment for the C5 counterexample: tool `"a"` succeeds
with a snapshot image, tool `"b"` throws. -/
def envC5 : SeqEnv :=
  { hasTool := fun t => t = "a" || t = "b"
    resolveFails := fun _ => false
    isIOClass := fun _ => true
    handleAction := fun _ tool _ _ =>
      if tool = "a" then
        Except.ok { content := [ContentItem.text "did a", ContentItem.image "imgA"] }
      else Except.error "boom" }

/-- C5 counterexample run: `[a-ok-with-image, b-fails]`, continue-on-error,
no intermediate capture. -/
def pC5 : SequenceParams :=
  { window := none
    commands := [{ tool := "a", action := "go" }, { tool := "b", action := "go" }]
    captureIntermediate := false
    stopOnError := false
    delayBetween := 0 }

/-- Counterexample to claim C5 as stated: the loop completes without a
stopping failure (status `"partial"`, `stopOnError = false`), the last
successful step's result carries the image `imgA`, yet the output
contains no image at all — the code consults the final step (which
failed), not the last successful one. -/
theorem seq_last_successful_snapshot_counterexample :
    runStep envC5 0 none { tool := "a", action := "go" } =
      Except.ok { content := [ContentItem.text "did a", ContentItem.image "imgA"] }
    ∧ runStep envC5 1 none { tool := "b", action := "go" } = Except.error "boom"
    ∧ (executeSequence envC5 pC5).content =
        [ContentItem.summary
          { status := "partial", total := 2, executed := none,
            successful := 1, failed := 1, errorMsg := none,
            results := [{ tool := "a", action := "go", success := true, error := none },
              { tool := "b", action := "go", success := false, error := some "boom" }] }]
    ∧ (executeSequence envC5 pC5).content.filter isImageItem = [] := by
  refine ⟨?_, ?_, ?_, ?_⟩ <;> decide

/-- The image content the finalization step appends: the final outcome's
images when the final step succeeded, nothing otherwise. -/
def lastImages (results : List SeqStepResult) : List ContentItem :=
  match results.getLast? with
  | some fr =>
    match fr.success, fr.response with
    | true, some resp => resp.content.filter isImageItem
    | _, _ => []
  | none => []

/-- Image filter of the finalize step with `captureIntermediate = false`. -/
theorem seqFinalize_images (total : Nat) (results : List SeqStepResult)
    (AC : List ContentItem) :
    (seqFinalize false total results AC).content.filter isImageItem
      = AC.filter isImageItem ++ lastImages results := by
  rcases hl : results.getLast? with _ | fr
  · have h0 : results = [] := by
      rwa [List.getLast?_eq_none_iff] at hl
    subst h0
    simp [seqFinalize, lastImages, isImageItem]
  · have hne : results ≠ [] := by
      intro h
      rw [h] at hl
      simp at hl
    have hpos : 0 < results.length := List.length_pos.mpr hne
    unfold seqFinalize
    rw [if_pos ⟨rfl, hpos⟩, hl]
    obtain ⟨cmd, succ, err, resp⟩ := fr
    cases succ with
    | true =>
      cases resp with
      | some r =>
        simp only [lastImages, hl, List.filter_append, filter_images_idem]
        simp [isImageItem]
      | none =>
        simp [lastImages, hl, List.filter_append, isImageItem]
    | false =>
      simp [lastImages, hl, List.filter_append, isImageItem]

/-- The images in a completed run's output (no intermediate capture, no
per-step capture flags): exactly the image portion of the final step's
outcome. -/
theorem seqLoop_images (env : SeqEnv) (shared : Option JsonVal) (total : Nat) :
    ∀ (cmds : List SeqCommand) (clast : SeqCommand) (results : List SeqStepResult)
      (allContent : List ContentItem) (so : Bool),
      cmds.getLast? = some clast →
      (∀ c ∈ cmds, c.captureResult = false) →
      (so = false ∨ ∀ j (h : j < cmds.length),
        exceptOk (runStep env (results.length + j) shared (cmds.get ⟨j, h⟩)) = true) →
      (seqLoop env shared false so total cmds results allContent).content.filter isImageItem
        = allContent.filter isImageItem
          ++ imagesOfOutcome (runStep env (results.length + (cmds.length - 1)) shared clast) := by
  intro cmds
  induction cmds with
  | nil =>
    intro clast results allContent so hlast _hnocap _hcomplete
    simp at hlast
  | cons c rest ih =>
    intro clast results allContent so hlast hnocap hcomplete
    have hcap : c.captureResult = false := hnocap c (by simp)
    cases rest with
    | nil =>
      have hc : c = clast := by
        simpa using hlast
      subst hc
      cases hstep : runStep env results.length shared c with
      | ok r =>
        simp only [seqLoop, hstep, hcap, Bool.or_false, Bool.false_eq_true, if_false]
        rw [seqFinalize_images]
        simp [lastImages, List.getLast?_concat, imagesOfOutcome, hstep]
      | error msg =>
        rcases hcomplete with hso | hall
        · subst hso
          simp only [seqLoop, hstep, Bool.false_eq_true, if_false]
          rw [seqFinalize_images]
          simp [lastImages, List.getLast?_concat, imagesOfOutcome, hstep]
        · have h0 := hall 0 (by simp)
          rw [Nat.add_zero] at h0
          rw [show ([c].get ⟨0, by simp⟩) = c from rfl] at h0
          rw [hstep] at h0
          simp [exceptOk] at h0
    | cons c2 rest2 =>
      have hlast2 : (c2 :: rest2).getLast? = some clast := by
        simpa [List.getLast?_cons_cons] using hlast
      have hnocap2 : ∀ x ∈ c2 :: rest2, x.captureResult = false := by
        intro x hx
        exact hnocap x (List.mem_cons_of_mem c hx)
      cases hstep : runStep env results.length shared c with
      | ok r =>
        have hcomplete2 : so = false ∨ ∀ j (h : j < (c2 :: rest2).length),
            exceptOk (runStep env ((results ++ [okStep c r]).length + j) shared
              ((c2 :: rest2).get ⟨j, h⟩)) = true := by
          rcases hcomplete with hso | hall
          · exact Or.inl hso
          · refine Or.inr ?_
            intro j hj
            have h1 := hall (j + 1) (by simpa using Nat.succ_lt_succ hj)
            have harith : results.length + (j + 1) = (results ++ [okStep c r]).length + j := by
              simp
              omega
            rw [harith] at h1
            simpa using h1
        have hrec := ih clast (results ++ [okStep c r]) allContent so hlast2 hnocap2 hcomplete2
        have hidx : (results ++ [okStep c r]).length + ((c2 :: rest2).length - 1)
            = results.length + ((c :: c2 :: rest2).length - 1) := by
          simp only [List.length_append, List.length_cons, List.length_nil]
          omega
        rw [hidx] at hrec
        simp only [seqLoop, hstep, hcap, Bool.or_false, Bool.false_eq_true, if_false]
        exact hrec
      | error msg =>
        rcases hcomplete with hso | hall
        · subst hso
          have hcomplete2 : (false : Bool) = false ∨ ∀ j (h : j < (c2 :: rest2).length),
              exceptOk (runStep env ((results ++ [failStep c msg]).length + j) shared
                ((c2 :: rest2).get ⟨j, h⟩)) = true := Or.inl rfl
          have hrec := ih clast (results ++ [failStep c msg]) allContent false hlast2
            hnocap2 hcomplete2
          have hidx : (results ++ [failStep c msg]).length + ((c2 :: rest2).length - 1)
              = results.length + ((c :: c2 :: rest2).length - 1) := by
            simp only [List.length_append, List.length_cons, List.length_nil]
            omega
          rw [hidx] at hrec
          simp only [seqLoop, hstep, Bool.false_eq_true, if_false]
          exact hrec
        · have h0 := hall 0 (by simp)
          rw [Nat.add_zero] at h0
          rw [show ((c :: c2 :: rest2).get ⟨0, by simp⟩) = c from rfl] at h0
          rw [hstep] at h0
          simp [exceptOk] at h0

/-- The step-by-step captured content of a run with
`captureIntermediate = true`: each executed step's full response content
in order (a failing step contributes nothing), starting at call
position `idx`. -/
def fullCapture (env : SeqEnv) (shared : Option JsonVal) : Nat → List SeqCommand → List ContentItem
  | _, [] => []
  | idx, c :: rest =>
    (match runStep env idx shared c with
     | .ok r => r.content
     | .error _ => []) ++ fullCapture env shared (idx + 1) rest

/-- Full content of the finalize step with `captureIntermediate = false`:
the captured content, then exactly the final outcome's images, then the
terminal summary — nothing else. -/
theorem seqFinalize_content (total : Nat) (results : List SeqStepResult)
    (AC : List ContentItem) :
    ∃ S, seqFinalize false total results AC =
      { content := AC ++ lastImages results ++ [ContentItem.summary S] } := by
  refine ⟨{ status := if (results.filter (fun r => !r.success)).length = 0
              then "success" else "partial",
            total := total, executed := none,
            successful := (results.filter (fun r => r.success)).length,
            failed := (results.filter (fun r => !r.success)).length,
            errorMsg := none, results := results.map toReport }, ?_⟩
  rcases hl : results.getLast? with _ | fr
  · have h0 : results = [] := by
      rwa [List.getLast?_eq_none_iff] at hl
    subst h0
    simp [seqFinalize, lastImages]
  · have hne : results ≠ [] := by
      intro h
      rw [h] at hl
      simp at hl
    have hpos : 0 < results.length := List.length_pos.mpr hne
    unfold seqFinalize
    rw [if_pos ⟨rfl, hpos⟩, hl]
    obtain ⟨cmd, succ, err, resp⟩ := fr
    cases succ with
    | true =>
      cases resp with
      | some r => simp [lastImages, hl, List.append_assoc]
      | none => simp [lastImages, hl]
    | false => simp [lastImages, hl]

/-- Full content of the finalize step with `captureIntermediate = true`:
just the captured content and the terminal summary (no extra image
append). -/
theorem seqFinalize_content_ci (total : Nat) (results : List SeqStepResult)
    (AC : List ContentItem) :
    ∃ S, seqFinalize true total results AC =
      { content := AC ++ [ContentItem.summary S] } := by
  refine ⟨{ status := if (results.filter (fun r => !r.success)).length = 0
              then "success" else "partial",
            total := total, executed := none,
            successful := (results.filter (fun r => r.success)).length,
            failed := (results.filter (fun r => !r.success)).length,
            errorMsg := none, results := results.map toReport }, ?_⟩
  unfold seqFinalize
  rw [if_neg (by simp)]

/-- The full output content of a completed run without intermediate
capture and without per-step capture flags: exactly the final step's
image portion followed by the terminal summary. -/
theorem seqLoop_content (env : SeqEnv) (shared : Option JsonVal) (total : Nat) :
    ∀ (cmds : List SeqCommand) (clast : SeqCommand) (results : List SeqStepResult)
      (allContent : List ContentItem) (so : Bool),
      cmds.getLast? = some clast →
      (∀ c ∈ cmds, c.captureResult = false) →
      (so = false ∨ ∀ j (h : j < cmds.length),
        exceptOk (runStep env (results.length + j) shared (cmds.get ⟨j, h⟩)) = true) →
      ∃ S, seqLoop env shared false so total cmds results allContent =
        { content := allContent
            ++ imagesOfOutcome (runStep env (results.length + (cmds.length - 1)) shared clast)
            ++ [ContentItem.summary S] } := by
  intro cmds
  induction cmds with
  | nil =>
    intro clast results allContent so hlast _hnocap _hcomplete
    simp at hlast
  | cons c rest ih =>
    intro clast results allContent so hlast hnocap hcomplete
    have hcap : c.captureResult = false := hnocap c (by simp)
    cases rest with
    | nil =>
      have hc : c = clast := by
        simpa using hlast
      subst hc
      cases hstep : runStep env results.length shared c with
      | ok r =>
        obtain ⟨S, hS⟩ := seqFinalize_content total (results ++ [okStep c r]) allContent
        refine ⟨S, ?_⟩
        simp only [seqLoop, hstep, hcap, Bool.or_false, Bool.false_eq_true, if_false]
        refine hS.trans ?_
        simp [lastImages, List.getLast?_concat, okStep, imagesOfOutcome, hstep]
      | error msg =>
        rcases hcomplete with hso | hall
        · subst hso
          obtain ⟨S, hS⟩ := seqFinalize_content total (results ++ [failStep c msg]) allContent
          refine ⟨S, ?_⟩
          simp only [seqLoop, hstep, Bool.false_eq_true, if_false]
          refine hS.trans ?_
          simp [lastImages, List.getLast?_concat, failStep, imagesOfOutcome, hstep]
        · have h0 := hall 0 (by simp)
          rw [Nat.add_zero] at h0
          rw [show ([c].get ⟨0, by simp⟩) = c from rfl] at h0
          rw [hstep] at h0
          simp [exceptOk] at h0
    | cons c2 rest2 =>
      have hlast2 : (c2 :: rest2).getLast? = some clast := by
        simpa [List.getLast?_cons_cons] using hlast
      have hnocap2 : ∀ x ∈ c2 :: rest2, x.captureResult = false := by
        intro x hx
        exact hnocap x (List.mem_cons_of_mem c hx)
      cases hstep : runStep env results.length shared c with
      | ok r =>
        have hcomplete2 : so = false ∨ ∀ j (h : j < (c2 :: rest2).length),
            exceptOk (runStep env ((results ++ [okStep c r]).length + j) shared
              ((c2 :: rest2).get ⟨j, h⟩)) = true := by
          rcases hcomplete with hso | hall
          · exact Or.inl hso
          · refine Or.inr ?_
            intro j hj
            have h1 := hall (j + 1) (by simpa using Nat.succ_lt_succ hj)
            have harith : results.length + (j + 1) = (results ++ [okStep c r]).length + j := by
              simp
              omega
            rw [harith] at h1
            simpa using h1
        obtain ⟨S, hrec⟩ := ih clast (results ++ [okStep c r]) allContent so hlast2
          hnocap2 hcomplete2
        have hidx : (results ++ [okStep c r]).length + ((c2 :: rest2).length - 1)
            = results.length + ((c :: c2 :: rest2).length - 1) := by
          simp only [List.length_append, List.length_cons, List.length_nil]
          omega
        rw [hidx] at hrec
        refine ⟨S, ?_⟩
        simp only [seqLoop, hstep, hcap, Bool.or_false, Bool.false_eq_true, if_false]
        exact hrec
      | error msg =>
        rcases hcomplete with hso | hall
        · subst hso
          obtain ⟨S, hrec⟩ := ih clast (results ++ [failStep c msg]) allContent false hlast2
            hnocap2 (Or.inl rfl)
          have hidx : (results ++ [failStep c msg]).length + ((c2 :: rest2).length - 1)
              = results.length + ((c :: c2 :: rest2).length - 1) := by
            simp only [List.length_append, List.length_cons, List.length_nil]
            omega
          rw [hidx] at hrec
          refine ⟨S, ?_⟩
          simp only [seqLoop, hstep, Bool.false_eq_true, if_false]
          exact hrec
        · have h0 := hall 0 (by simp)
          rw [Nat.add_zero] at h0
          rw [show ((c :: c2 :: rest2).get ⟨0, by simp⟩) = c from rfl] at h0
          rw [hstep] at h0
          simp [exceptOk] at h0

/-- The full output content of a completed run with
`captureIntermediate = true`: every executed step's full result, in
order, then the terminal summary. -/
theorem seqLoop_fullCapture (env : SeqEnv) (shared : Option JsonVal) (total : Nat) :
    ∀ (cmds : List SeqCommand) (results : List SeqStepResult)
      (allContent : List ContentItem) (so : Bool),
      (so = false ∨ ∀ j (h : j < cmds.length),
        exceptOk (runStep env (results.length + j) shared (cmds.get ⟨j, h⟩)) = true) →
      ∃ S, seqLoop env shared true so total cmds results allContent =
        { content := allContent ++ fullCapture env shared results.length cmds
            ++ [ContentItem.summary S] } := by
  intro cmds
  induction cmds with
  | nil =>
    intro results allContent so _h
    obtain ⟨S, hS⟩ := seqFinalize_content_ci total results allContent
    refine ⟨S, ?_⟩
    simpa [seqLoop, fullCapture] using hS
  | cons c rest ih =>
    intro results allContent so hcomplete
    cases hstep : runStep env results.length shared c with
    | ok r =>
      have hcomplete2 : so = false ∨ ∀ j (h : j < rest.length),
          exceptOk (runStep env ((results ++ [okStep c r]).length + j) shared
            (rest.get ⟨j, h⟩)) = true := by
        rcases hcomplete with hso | hall
        · exact Or.inl hso
        · refine Or.inr ?_
          intro j hj
          have h1 := hall (j + 1) (by simpa using Nat.succ_lt_succ hj)
          have harith : results.length + (j + 1) = (results ++ [okStep c r]).length + j := by
            simp
            omega
          rw [harith] at h1
          simpa using h1
      obtain ⟨S, hrec⟩ := ih (results ++ [okStep c r]) (allContent ++ r.content) so hcomplete2
      have hlen2 : (results ++ [okStep c r]).length = results.length + 1 := by
        simp
      rw [hlen2] at hrec
      refine ⟨S, ?_⟩
      simp only [seqLoop, hstep, Bool.true_or, if_true]
      refine hrec.trans ?_
      simp [fullCapture, hstep, List.append_assoc]
    | error msg =>
      rcases hcomplete with hso | hall
      · subst hso
        obtain ⟨S, hrec⟩ := ih (results ++ [failStep c msg]) allContent false (Or.inl rfl)
        have hlen2 : (results ++ [failStep c msg]).length = results.length + 1 := by
          simp
        rw [hlen2] at hrec
        refine ⟨S, ?_⟩
        simp only [seqLoop, hstep, Bool.false_eq_true, if_false]
        refine hrec.trans ?_
        simp [fullCapture, hstep]
      · have h0 := hall 0 (by simp)
        rw [Nat.add_zero] at h0
        rw [show ((c :: rest).get ⟨0, by simp⟩) = c from rfl] at h0
        rw [hstep] at h0
        simp [exceptOk] at h0

/-- Claim C5 (amended): when the loop completes (continue-on-error, or
every step succeeds), with `captureIntermediate = false` and no per-step
capture flags, the output content is exactly the image portion of the
FINAL step's result — never its text, and empty when that final step
failed (even when an earlier step succeeded with a snapshot) — followed
by the terminal summary; with `captureIntermediate = true` the output
content is exactly every executed step's full result appended
incrementally in order, followed by the terminal summary. -/
theorem seq_final_step_snapshot (env : SeqEnv) (shared : Option JsonVal) (d : Nat)
    (cmds : List SeqCommand) (clast : SeqCommand) (so : Bool)
    (hlast : cmds.getLast? = some clast)
    (hnocap : ∀ c ∈ cmds, c.captureResult = false)
    (hcomplete : so = false ∨ ∀ j (h : j < cmds.length),
      exceptOk (runStep env j shared (cmds.get ⟨j, h⟩)) = true) :
    (∃ S, (executeSequence env
        { window := shared, commands := cmds, captureIntermediate := false,
          stopOnError := so, delayBetween := d }).content
      = imagesOfOutcome (runStep env (cmds.length - 1) shared clast)
        ++ [ContentItem.summary S])
    ∧ (∃ S, (executeSequence env
        { window := shared, commands := cmds, captureIntermediate := true,
          stopOnError := so, delayBetween := d }).content
      = fullCapture env shared 0 cmds ++ [ContentItem.summary S]) := by
  constructor
  · obtain ⟨S, h⟩ := seqLoop_content env shared cmds.length cmds clast [] [] so hlast
      hnocap (by simpa using hcomplete)
    refine ⟨S, ?_⟩
    have h2 := congrArg ToolResponse.content h
    simpa using h2
  · obtain ⟨S, h⟩ := seqLoop_fullCapture env shared cmds.length cmds [] [] so
      (by simpa using hcomplete)
    refine ⟨S, ?_⟩
    have h2 := congrArg ToolResponse.content h
    simpa using h2

/-- Witness for the amended C5 on the counterexample run: the final step
failed, so the content is just the summary (no image, no text from the
successful first step); with intermediate capture the first step's full
result appears. -/
theorem seq_final_step_snapshot_witness :
    (∃ S, (executeSequence envC5 pC5).content
      = imagesOfOutcome (runStep envC5 1 none { tool := "b", action := "go" })
        ++ [ContentItem.summary S])
    ∧ (∃ S, (executeSequence envC5
        { window := none,
          commands := [{ tool := "a", action := "go" }, { tool := "b", action := "go" }],
          captureIntermediate := true, stopOnError := false, delayBetween := 0 }).content
      = fullCapture envC5 none 0
          [{ tool := "a", action := "go" }, { tool := "b", action := "go" }]
        ++ [ContentItem.summary S]) :=
  seq_final_step_snapshot envC5 none 0
    [{ tool := "a", action := "go" }, { tool := "b", action := "go" }]
    { tool := "b", action := "go" } false (by decide) (by decide) (Or.inl rfl)

/-! ## Autopress: association-list lemmas -/

theorem apLookup_mem {entries : List (String × Nat × APConfig)} {id : String}
    {v : Nat × APConfig} (h : apLookup entries id = some v) : (id, v) ∈ entries := by
  induction entries with
  | nil => simp [apLookup] at h
  | cons hd tl ih =>
    obtain ⟨k, w⟩ := hd
    by_cases hk : k = id
    · subst hk
      simp [apLookup] at h
      simp [h]
    · simp [apLookup, hk] at h
      exact List.mem_cons_of_mem _ (ih h)

theorem apLookup_eq_none_of_not_mem {entries : List (String × Nat × APConfig)}
    {id : String} (h : ∀ e ∈ entries, e.1 ≠ id) : apLookup entries id = none := by
  induction entries with
  | nil => rfl
  | cons hd tl ih =>
    have hne : hd.1 ≠ id := h hd (by simp)
    obtain ⟨k, w⟩ := hd
    simp only [apLookup, if_neg hne]
    exact ih fun e he => h e (List.mem_cons_of_mem _ he)

theorem apLookup_unique {entries : List (String × Nat × APConfig)} {id : String}
    {v : Nat × APConfig} (hnd : (entries.map Prod.fst).Nodup)
    (hmem : (id, v) ∈ entries) : apLookup entries id = some v := by
  induction entries with
  | nil => simp at hmem
  | cons hd tl ih =>
    obtain ⟨k, w⟩ := hd
    have hnd1 : (k :: tl.map Prod.fst).Nodup := by
      simpa only [List.map_cons] using hnd
    have hnd2 := List.nodup_cons.mp hnd1
    rcases List.mem_cons.mp hmem with heq | hmem2
    · injection heq with h1 h2
      subst h1
      subst h2
      simp [apLookup]
    · have hk : k ≠ id := by
        intro hke
        subst hke
        exact hnd2.1 (List.mem_map.mpr ⟨(k, v), hmem2, rfl⟩)
      simp only [apLookup, if_neg hk]
      exact ih hnd2.2 hmem2

theorem apLookup_append (l1 l2 : List (String × Nat × APConfig)) (id : String) :
    apLookup (l1 ++ l2) id =
      match apLookup l1 id with
      | some v => some v
      | none => apLookup l2 id := by
  induction l1 with
  | nil => simp [apLookup]
  | cons hd tl ih =>
    obtain ⟨k, w⟩ := hd
    by_cases hk : k = id
    · subst hk
      simp [apLookup]
    · simp [apLookup, hk, ih]

theorem apErase_sublist (entries : List (String × Nat × APConfig)) (id : String) :
    (apErase entries id).Sublist entries := by
  induction entries with
  | nil => simp [apErase]
  | cons hd tl ih =>
    obtain ⟨k, w⟩ := hd
    by_cases hk : k = id
    · subst hk
      simp only [apErase, if_pos rfl]
      exact List.sublist_cons_self _ _
    · simp only [apErase, if_neg hk]
      exact List.Sublist.cons₂ _ ih

theorem mem_apErase {entries : List (String × Nat × APConfig)} {id : String}
    {e : String × Nat × APConfig} (h : e ∈ apErase entries id) : e ∈ entries :=
  (apErase_sublist entries id).mem h

theorem mem_apErase_ne {entries : List (String × Nat × APConfig)} {id : String}
    (hnd : (entries.map Prod.fst).Nodup) :
    ∀ e ∈ apErase entries id, e.1 ≠ id := by
  induction entries with
  | nil => simp [apErase]
  | cons hd tl ih =>
    obtain ⟨k, w⟩ := hd
    simp only [List.map_cons, List.nodup_cons] at hnd
    by_cases hk : k = id
    · subst hk
      simp only [apErase, if_pos rfl]
      intro e he hid
      exact hnd.1 (List.mem_map.mpr ⟨e, he, hid⟩)
    · simp only [apErase, if_neg hk]
      intro e he
      rcases List.mem_cons.mp he with heq | he2
      · rw [heq]
        exact hk
      · exact ih hnd.2 e he2

theorem mem_apErase_of_ne {entries : List (String × Nat × APConfig)} {id : String}
    {e : String × Nat × APConfig} (hmem : e ∈ entries) (hne : e.1 ≠ id) :
    e ∈ apErase entries id := by
  induction entries with
  | nil => simp at hmem
  | cons hd tl ih =>
    obtain ⟨k, w⟩ := hd
    rcases List.mem_cons.mp hmem with heq | hmem2
    · subst heq
      simp only [apErase, if_neg hne]
      exact List.mem_cons_self _ _
    · by_cases hk : k = id
      · subst hk
        simpa [apErase] using hmem2
      · simp only [apErase, if_neg hk]
        exact List.mem_cons_of_mem _ (ih hmem2)

theorem cbLookup_mem {cbs : List (Nat × String × APConfig)} {t : Nat}
    {v : String × APConfig} (h : cbLookup cbs t = some v) : (t, v) ∈ cbs := by
  induction cbs with
  | nil => simp [cbLookup] at h
  | cons hd tl ih =>
    obtain ⟨k, w⟩ := hd
    by_cases hk : k = t
    · subst hk
      simp [cbLookup] at h
      simp [h]
    · simp [cbLookup, hk] at h
      exact List.mem_cons_of_mem _ (ih h)

theorem cbLookup_append (l1 l2 : List (Nat × String × APConfig)) (t : Nat) :
    cbLookup (l1 ++ l2) t =
      match cbLookup l1 t with
      | some v => some v
      | none => cbLookup l2 t := by
  induction l1 with
  | nil => simp [cbLookup]
  | cons hd tl ih =>
    obtain ⟨k, w⟩ := hd
    by_cases hk : k = t
    · subst hk
      simp [cbLookup]
    · simp [cbLookup, hk, ih]

theorem cbLookup_eq_none_of_lt {cbs : List (Nat × String × APConfig)} {n : Nat}
    (h : ∀ p ∈ cbs, p.1 < n) : cbLookup cbs n = none := by
  induction cbs with
  | nil => rfl
  | cons hd tl ih =>
    have hlt : hd.1 < n := h hd (by simp)
    obtain ⟨k, w⟩ := hd
    have hk : k ≠ n := Nat.ne_of_lt hlt
    simp only [cbLookup, if_neg hk]
    exact ih fun p hp => h p (List.mem_cons_of_mem _ hp)

theorem mem_foldl_erase {entries : List (String × Nat × APConfig)} :
    ∀ {live : List Nat} {t : Nat},
      t ∈ entries.foldl (fun l e => l.erase e.2.1) live → t ∈ live := by
  induction entries with
  | nil => intro live t h; simpa using h
  | cons hd tl ih =>
    intro live t h
    simp only [List.foldl_cons] at h
    exact List.mem_of_mem_erase (ih h)

theorem apLookup_ne_none_of_mem {entries : List (String × Nat × APConfig)}
    {id : String} {v : Nat × APConfig} (h : (id, v) ∈ entries) :
    apLookup entries id ≠ none := by
  induction entries with
  | nil => simp at h
  | cons hd tl ih =>
    obtain ⟨k, w⟩ := hd
    by_cases hk : k = id
    · subst hk
      simp [apLookup]
    · simp only [apLookup, if_neg hk]
      rcases List.mem_cons.mp h with heq | h2
      · injection heq with h1 _
        exact absurd h1.symm hk
      · exact ih h2

theorem nodup_foldl_erase {entries : List (String × Nat × APConfig)} :
    ∀ {live : List Nat}, live.Nodup →
      (entries.foldl (fun l e => l.erase e.2.1) live).Nodup := by
  induction entries with
  | nil => intro live h; simpa using h
  | cons hd tl ih =>
    intro live h
    simp only [List.foldl_cons]
    exact ih (h.erase _)

theorem mem_foldl_erase_strong {entries : List (String × Nat × APConfig)} :
    ∀ {live : List Nat} {t : Nat}, live.Nodup →
      t ∈ entries.foldl (fun l e => l.erase e.2.1) live →
      t ∈ live ∧ ∀ e ∈ entries, e.2.1 ≠ t := by
  induction entries with
  | nil =>
    intro live t _ h
    simp only [List.foldl_nil] at h
    exact ⟨h, by simp⟩
  | cons hd tl ih =>
    intro live t hnd h
    simp only [List.foldl_cons] at h
    obtain ⟨h1, h2⟩ := ih (hnd.erase _) h
    have h3 := (hnd.mem_erase_iff).mp h1
    refine ⟨h3.2, ?_⟩
    intro e he
    rcases List.mem_cons.mp he with heq | he2
    · rw [heq]
      exact fun hco => h3.1 hco.symm
    · exact h2 e he2

/-! ## Autopress: invariant preservation -/

theorem apInv_initial (b : Bool) : APInv (apInitial b) := by
  constructor <;> simp [apInitial]

theorem apInv_stop (s : APState) (id : String) (h : APInv s) : APInv (apStop s id).2 := by
  rcases hl : apLookup s.entries id with _ | ⟨tid, cfg⟩
  · simpa [apStop, hl] using h
  · simp only [apStop, hl]
    constructor
    · intro t ht
      exact h.liveLt t (List.mem_of_mem_erase ht)
    · intro e he
      exact h.entryLt e (mem_apErase he)
    · exact h.cbLt
    · exact h.liveNodup.erase _
    · exact List.Nodup.sublist ((apErase_sublist s.entries id).map Prod.fst) h.idsNodup
    · exact List.Nodup.sublist ((apErase_sublist s.entries id).map (fun e => e.2.1))
        h.tidsNodup
    · intro t ht
      have htl := (h.liveNodup.mem_erase_iff).mp ht
      obtain ⟨e, he, hte⟩ := h.liveOwned t htl.2
      obtain ⟨e1, e2⟩ := e
      by_cases heid : e1 = id
      · exfalso
        subst heid
        have := apLookup_unique h.idsNodup he
        rw [hl] at this
        injection this with hv
        rw [← hv] at hte
        exact htl.1 (by simpa using hte.symm)
      · exact ⟨(e1, e2), mem_apErase_of_ne he heid, hte⟩
    · intro e he
      exact h.entryCb e (mem_apErase he)

theorem apInv_stopAll (s : APState) (h : APInv s) : APInv (apStopAll s).2 := by
  simp only [apStopAll]
  constructor
  · intro t ht
    exact h.liveLt t (mem_foldl_erase ht)
  · intro e he
    simp at he
  · exact h.cbLt
  · exact nodup_foldl_erase h.liveNodup
  · simp
  · simp
  · intro t ht
    obtain ⟨h1, h2⟩ := mem_foldl_erase_strong h.liveNodup ht
    obtain ⟨e, he, hte⟩ := h.liveOwned t h1
    exact absurd hte (h2 e he)
  · intro e he
    simp at he

theorem apInv_extend (s1 : APState) (cfg : APConfig) (h1 : APInv s1)
    (hid : cfg.id ∉ s1.entries.map Prod.fst) :
    APInv { entries := s1.entries ++ [(cfg.id, s1.next, cfg)]
            live := s1.live ++ [s1.next]
            callbacks := s1.callbacks ++ [(s1.next, cfg.id, cfg)]
            next := s1.next + 1
            executorSet := s1.executorSet } := by
  refine ⟨?_, ?_, ?_, ?_, ?_, ?_, ?_, ?_⟩
  · intro t ht
    show t < s1.next + 1
    rcases List.mem_append.mp ht with h | h
    · exact Nat.lt_succ_of_lt (h1.liveLt t h)
    · have hts : t = s1.next := by simpa using h
      omega
  · intro e he
    show e.2.1 < s1.next + 1
    rcases List.mem_append.mp he with h | h
    · exact Nat.lt_succ_of_lt (h1.entryLt e h)
    · have hee : e = (cfg.id, s1.next, cfg) := by simpa using h
      rw [hee]
      exact Nat.lt_succ_self _
  · intro p hp
    show p.1 < s1.next + 1
    rcases List.mem_append.mp hp with h | h
    · exact Nat.lt_succ_of_lt (h1.cbLt p h)
    · have hpe : p = (s1.next, cfg.id, cfg) := by simpa using h
      rw [hpe]
      exact Nat.lt_succ_self _
  · show (s1.live ++ [s1.next]).Nodup
    rw [List.nodup_append]
    refine ⟨h1.liveNodup, List.nodup_singleton _, ?_⟩
    intro a ha hb
    have hab : a = s1.next := by simpa using hb
    rw [hab] at ha
    exact absurd (h1.liveLt _ ha) (lt_irrefl _)
  · show ((s1.entries ++ [(cfg.id, s1.next, cfg)]).map Prod.fst).Nodup
    rw [List.map_append, List.nodup_append]
    refine ⟨h1.idsNodup, by simp, ?_⟩
    intro a ha hb
    have hab : a = cfg.id := by simpa using hb
    rw [hab] at ha
    exact hid ha
  · show ((s1.entries ++ [(cfg.id, s1.next, cfg)]).map (fun e => e.2.1)).Nodup
    rw [List.map_append, List.nodup_append]
    refine ⟨h1.tidsNodup, by simp, ?_⟩
    intro a ha hb
    have hab : a = s1.next := by simpa using hb
    obtain ⟨e, he, hae⟩ := List.mem_map.mp ha
    have := h1.entryLt e he
    omega
  · intro t ht
    rcases List.mem_append.mp ht with h | h
    · obtain ⟨e, he, hte⟩ := h1.liveOwned t h
      exact ⟨e, List.mem_append_left _ he, hte⟩
    · have hts : t = s1.next := by simpa using h
      exact ⟨(cfg.id, s1.next, cfg), List.mem_append_right _ (by simp), hts.symm⟩
  · intro e he
    show cbLookup (s1.callbacks ++ [(s1.next, cfg.id, cfg)]) e.2.1 = some (e.1, e.2.2)
    rcases List.mem_append.mp he with h | h
    · rw [cbLookup_append, h1.entryCb e h]
    · have hee : e = (cfg.id, s1.next, cfg) := by simpa using h
      rw [hee]
      rw [cbLookup_append, cbLookup_eq_none_of_lt h1.cbLt]
      simp [cbLookup]

theorem apInv_startBase (s : APState) (cfg : APConfig) (h : APInv s) :
    APInv (apStartBase s cfg) := by
  rcases hlk : apLookup s.entries cfg.id with _ | v
  · have hid : cfg.id ∉ s.entries.map Prod.fst := by
      intro hmem
      obtain ⟨e, he, heq⟩ := List.mem_map.mp hmem
      obtain ⟨e1, e2⟩ := e
      simp only at heq
      subst heq
      exact apLookup_ne_none_of_mem he hlk
    have hgoal := apInv_extend s cfg h hid
    simpa [apStartBase, hlk] using hgoal
  · have hstop := apInv_stop s cfg.id h
    have hid : cfg.id ∉ (apStop s cfg.id).2.entries.map Prod.fst := by
      obtain ⟨tid, c⟩ := v
      simp only [apStop, hlk]
      intro hmem
      obtain ⟨e, he, heq⟩ := List.mem_map.mp hmem
      exact mem_apErase_ne h.idsNodup e he heq
    have hgoal := apInv_extend (apStop s cfg.id).2 cfg hstop hid
    simpa [apStartBase, hlk] using hgoal

theorem apInv_start (s : APState) (cfg : APConfig) (s2 : APState) (h : APInv s)
    (hok : apStart s cfg = Except.ok s2) : APInv s2 := by
  have hshape : apStartBase s cfg = s2 := by
    unfold apStart at hok
    split_ifs at hok
    injection hok
  rw [← hshape]
  exact apInv_startBase s cfg h

theorem apInv_step (s : APState) (e : APEvent) (h : APInv s) : APInv (apStep s e) := by
  cases e with
  | startE cfg =>
    simp only [apStep]
    cases hok : apStart s cfg with
    | ok s2 => exact apInv_start s cfg s2 h hok
    | error msg => exact h
  | stopE id => exact apInv_stop s id h
  | stopAllE => exact apInv_stopAll s h
  | tickE t => exact h

/-! ## Autopress: cancellation reasoning -/

theorem apStart_shape (s : APState) (cfg : APConfig) (s2 : APState)
    (hok : apStart s cfg = Except.ok s2) : apStartBase s cfg = s2 := by
  unfold apStart at hok
  split_ifs at hok
  injection hok

theorem ticksOnly_stop (x : String) (o : Option APConfig) (s : APState) (id : String)
    (h : ticksOnly x o s) : ticksOnly x o (apStop s id).2 := by
  rcases hl : apLookup s.entries id with _ | ⟨tid, cfg⟩
  · simpa [apStop, hl] using h
  · simp only [apStop, hl]
    intro t ht cfg2 hcb
    exact h t (List.mem_of_mem_erase ht) cfg2 hcb

theorem ticksOnly_stopAll (x : String) (o : Option APConfig) (s : APState)
    (h : ticksOnly x o s) : ticksOnly x o (apStopAll s).2 := by
  intro t ht cfg2 hcb
  exact h t (mem_foldl_erase ht) cfg2 hcb

theorem ticksOnly_extend (s1 : APState) (cfg : APConfig) (h1 : APInv s1)
    (x : String) (o : Option APConfig) (hne : cfg.id ≠ x) (h : ticksOnly x o s1) :
    ticksOnly x o { entries := s1.entries ++ [(cfg.id, s1.next, cfg)]
                    live := s1.live ++ [s1.next]
                    callbacks := s1.callbacks ++ [(s1.next, cfg.id, cfg)]
                    next := s1.next + 1
                    executorSet := s1.executorSet } := by
  intro t ht cfg2 hcb
  have hcb2 : cbLookup (s1.callbacks ++ [(s1.next, cfg.id, cfg)]) t = some (x, cfg2) := hcb
  rcases List.mem_append.mp ht with h2 | h2
  · rw [cbLookup_append] at hcb2
    cases hcl : cbLookup s1.callbacks t with
    | some v =>
      rw [hcl] at hcb2
      simp at hcb2
      rw [hcb2] at hcl
      exact h t h2 cfg2 hcl
    | none =>
      rw [hcl] at hcb2
      simp only at hcb2
      have hlt := h1.liveLt t h2
      have hne2 : s1.next ≠ t := by omega
      simp [cbLookup, hne2] at hcb2
  · have hts : t = s1.next := by simpa using h2
    subst hts
    rw [cbLookup_append, cbLookup_eq_none_of_lt h1.cbLt] at hcb2
    simp only [cbLookup, if_pos rfl] at hcb2
    injection hcb2 with hcb3
    injection hcb3 with hcb4 _
    exact absurd hcb4 hne

theorem ticksOnly_extend_self (s1 : APState) (cfg : APConfig) (h1 : APInv s1)
    (x : String) (_hx : cfg.id = x) (h : ticksOnly x none s1) :
    ticksOnly x (some cfg)
      { entries := s1.entries ++ [(cfg.id, s1.next, cfg)]
        live := s1.live ++ [s1.next]
        callbacks := s1.callbacks ++ [(s1.next, cfg.id, cfg)]
        next := s1.next + 1
        executorSet := s1.executorSet } := by
  intro t ht cfg2 hcb
  have hcb2 : cbLookup (s1.callbacks ++ [(s1.next, cfg.id, cfg)]) t = some (x, cfg2) := hcb
  rcases List.mem_append.mp ht with h2 | h2
  · rw [cbLookup_append] at hcb2
    cases hcl : cbLookup s1.callbacks t with
    | some v =>
      rw [hcl] at hcb2
      simp at hcb2
      rw [hcb2] at hcl
      exact absurd (h t h2 cfg2 hcl) (by simp)
    | none =>
      rw [hcl] at hcb2
      simp only at hcb2
      have hlt := h1.liveLt t h2
      have hne2 : s1.next ≠ t := by omega
      simp [cbLookup, hne2] at hcb2
  · have hts : t = s1.next := by simpa using h2
    subst hts
    rw [cbLookup_append, cbLookup_eq_none_of_lt h1.cbLt] at hcb2
    simp only [cbLookup, if_pos rfl] at hcb2
    injection hcb2 with hcb3
    injection hcb3 with _ hcb5
    rw [hcb5]

theorem ticksOnly_start (x : String) (o : Option APConfig) (s : APState)
    (cfg : APConfig) (s2 : APState) (hinv : APInv s) (hne : cfg.id ≠ x)
    (h : ticksOnly x o s) (hok : apStart s cfg = Except.ok s2) : ticksOnly x o s2 := by
  rw [← apStart_shape s cfg s2 hok]
  rcases hlk : apLookup s.entries cfg.id with _ | v
  · have hbase := ticksOnly_extend s cfg hinv x o hne h
    simpa [apStartBase, hlk] using hbase
  · have hstop := ticksOnly_stop x o s cfg.id h
    have hinvstop := apInv_stop s cfg.id hinv
    have hbase := ticksOnly_extend (apStop s cfg.id).2 cfg hinvstop x o hne hstop
    simpa [apStartBase, hlk] using hbase

theorem ticksOnly_step (x : String) (o : Option APConfig) (s : APState) (e : APEvent)
    (hinv : APInv s) (hne : isStartFor x e = false) (h : ticksOnly x o s) :
    ticksOnly x o (apStep s e) := by
  cases e with
  | startE cfg =>
    have hcid : cfg.id ≠ x := by simpa [isStartFor] using hne
    simp only [apStep]
    cases hok : apStart s cfg with
    | ok s2 => exact ticksOnly_start x o s cfg s2 hinv hcid h hok
    | error msg => exact h
  | stopE id => exact ticksOnly_stop x o s id h
  | stopAllE => exact ticksOnly_stopAll x o s h
  | tickE t => exact h

theorem ticksOnly_trace (x : String) (o : Option APConfig) :
    ∀ (es : List APEvent) (s : APState), APInv s → ticksOnly x o s →
      (∀ e ∈ es, isStartFor x e = false) →
      ∀ f ∈ traceFires s es, f.1 = x → o = some f.2 := by
  intro es
  induction es with
  | nil =>
    intro s _ _ _ f hf
    simp [traceFires] at hf
  | cons e es ih =>
    intro s hinv ht hes f hf hfx
    simp only [traceFires] at hf
    rcases List.mem_append.mp hf with hf | hf
    · cases he : tickFires s e with
      | none =>
        rw [he] at hf
        simp at hf
      | some g =>
        rw [he] at hf
        simp at hf
        subst hf
        cases e with
        | tickE t =>
          simp only [tickFires] at he
          by_cases hmem : t ∈ s.live
          · rw [if_pos hmem] at he
            obtain ⟨f1, f2⟩ := f
            have hg1 : f1 = x := hfx
            rw [hg1] at he
            exact ht t hmem f2 he
          · rw [if_neg hmem] at he
            simp at he
        | startE cfg => simp [tickFires] at he
        | stopE id => simp [tickFires] at he
        | stopAllE => simp [tickFires] at he
    · exact ih (apStep s e) (apInv_step s e hinv)
        (ticksOnly_step x o s e hinv (hes e (by simp)) ht)
        (fun e2 he2 => hes e2 (List.mem_cons_of_mem _ he2)) f hf hfx

theorem ticksOnly_none_after_stop (s : APState) (x : String) (s2 : APState)
    (hinv : APInv s) (hstop : apStop s x = (true, s2)) :
    ticksOnly x none s2 := by
  rcases hl : apLookup s.entries x with _ | ⟨tid, cfg⟩
  · simp [apStop, hl] at hstop
  · have hs2 : s2 = { entries := apErase s.entries x, live := s.live.erase tid,
                      callbacks := s.callbacks, next := s.next,
                      executorSet := s.executorSet } := by
      simp only [apStop, hl] at hstop
      injection hstop with _h1 h2
      exact h2.symm
    subst hs2
    intro t ht cfg2 hcb
    exfalso
    have htl := (hinv.liveNodup.mem_erase_iff).mp ht
    obtain ⟨e, he, hte⟩ := hinv.liveOwned t htl.2
    have hecb := hinv.entryCb e he
    rw [hte] at hecb
    rw [hcb] at hecb
    obtain ⟨e1, e2⟩ := e
    injection hecb with hecb2
    injection hecb2 with hx1 _
    have hmem : (x, e2) ∈ s.entries := by
      have hx2 : x = e1 := by simpa using hx1
      rw [hx2]
      exact he
    have := apLookup_unique hinv.idsNodup hmem
    rw [hl] at this
    injection this with hv
    rw [← hv] at hte
    exact htl.1 (by simpa using hte.symm)

/-- Claim C3: immediately after `stop(x)` returns `true`, no further tick
for `x` ever executes — along any subsequent event trace that does not
restart `x`, every fired tick belongs to a different autopress id.
(A tick already in progress at the moment of cancellation is an event
that fired before the stop and is outside the trace quantified here.) -/
theorem autopress_stop_synchronous (s : APState) (x : String) (s2 : APState)
    (hinv : APInv s) (hstop : apStop s x = (true, s2))
    (es : List APEvent) (hes : ∀ e ∈ es, isStartFor x e = false) :
    ∀ f ∈ traceFires s2 es, f.1 ≠ x := by
  have hinv2 : APInv s2 := by
    have h2 := apInv_stop s x hinv
    rw [hstop] at h2
    exact h2
  have ht := ticksOnly_none_after_stop s x s2 hinv hstop
  intro f hf hfx
  have hcon := ticksOnly_trace x none es s2 hinv2 ht hes f hf hfx
  simp at hcon

/-- A one-command autopress payload for the witnesses. -/
def apCmd : APCommand := { ioClass := "gamepad", action := "gamepad_button", params := [] }

/-- Witness config under id `"x"`. -/
def cfgXA : APConfig := { id := "x", commands := [apCmd], interval := 50 }

/-- Replacement config under id `"x"`. -/
def cfgXB : APConfig := { id := "x", commands := [apCmd, apCmd], interval := 30 }

/-- Config under a different id `"y"`. -/
def cfgY : APConfig := { id := "y", commands := [apCmd], interval := 30 }

/-- State with a single running autopress `"x"`. -/
def apStateX : APState :=
  { entries := [("x", 0, cfgXA)], live := [0], callbacks := [(0, "x", cfgXA)]
    next := 1, executorSet := true }

/-- `apStateX` right after `stop("x")`. -/
def apStateX2 : APState :=
  { entries := [], live := [], callbacks := [(0, "x", cfgXA)]
    next := 1, executorSet := true }

/-- Witness for C3: after stopping `"x"`, a trace of ticks (including the
stale timer id 0) and a start of `"y"` fires no tick for `"x"`. -/
theorem autopress_stop_synchronous_witness :
    (traceFires apStateX2
        [APEvent.tickE 0, APEvent.startE cfgY, APEvent.tickE 1]).all
      (fun f => f.1 ≠ "x") = true := by
  have hinv : APInv apStateX := by
    refine ⟨?_, ?_, ?_, ?_, ?_, ?_, ?_, ?_⟩ <;> decide
  have h := autopress_stop_synchronous apStateX "x" apStateX2 hinv (by decide)
    [APEvent.tickE 0, APEvent.startE cfgY, APEvent.tickE 1] (by decide)
  rw [List.all_eq_true]
  intro f hf
  simpa using h f hf

/-- Claim C4: `start(x, A)` then `start(x, B)` leaves exactly one active
entry under `x`, bound to the fresh timer with config `B`; and until `x`
is started again, every tick that fires for `x` runs `B` (its commands at
its interval), never `A`. -/
theorem autopress_replace (s : APState) (x : String) (A B : APConfig)
    (hA : A.id = x) (hB : B.id = x) (hinv : APInv s)
    (s1 s2 : APState) (h1 : apStart s A = Except.ok s1)
    (h2 : apStart s1 B = Except.ok s2) :
    ((s2.entries.filter (fun e => e.1 = x)).length = 1)
    ∧ apLookup s2.entries x = some (s1.next, B)
    ∧ (∀ es, (∀ e ∈ es, isStartFor x e = false) →
        ∀ f ∈ traceFires s2 es, f.1 = x → f.2 = B) := by
  have hinv1 : APInv s1 := apInv_start s A s1 hinv h1
  have hinv2 : APInv s2 := apInv_start s1 B s2 hinv1 h2
  have hshape1 := apStart_shape s A s1 h1
  have hshape2 := apStart_shape s1 B s2 h2
  have hlk1ex : ∃ v, apLookup s1.entries x = some v := by
    rw [← hshape1]
    rcases hlk : apLookup s.entries A.id with _ | v0
    · have hent : (apStartBase s A).entries = s.entries ++ [(A.id, s.next, A)] := by
        simp [apStartBase, hlk]
      rw [hent, apLookup_append]
      cases hl2 : apLookup s.entries x with
      | some w => exact ⟨w, rfl⟩
      | none =>
        refine ⟨(s.next, A), ?_⟩
        simp [apLookup, hA]
    · have hent : (apStartBase s A).entries =
          (apStop s A.id).2.entries ++ [(A.id, (apStop s A.id).2.next, A)] := by
        simp [apStartBase, hlk]
      rw [hent, apLookup_append]
      cases hl2 : apLookup (apStop s A.id).2.entries x with
      | some w => exact ⟨w, rfl⟩
      | none =>
        refine ⟨((apStop s A.id).2.next, A), ?_⟩
        simp [apLookup, hA]
  obtain ⟨⟨tid1, cfgA1⟩, hlk1⟩ := hlk1ex
  have hstop1 : apStop s1 x = (true,
      { entries := apErase s1.entries x, live := s1.live.erase tid1,
        callbacks := s1.callbacks, next := s1.next, executorSet := s1.executorSet }) := by
    simp [apStop, hlk1]
  have hbase2 : apStartBase s1 B =
      { entries := apErase s1.entries x ++ [(B.id, s1.next, B)],
        live := s1.live.erase tid1 ++ [s1.next],
        callbacks := s1.callbacks ++ [(s1.next, B.id, B)],
        next := s1.next + 1, executorSet := s1.executorSet } := by
    simp [apStartBase, apStop, hB, hlk1]
  have hent2 : s2.entries = apErase s1.entries x ++ [(B.id, s1.next, B)] := by
    rw [← hshape2, hbase2]
  have herase_ne : ∀ e ∈ apErase s1.entries x, e.1 ≠ x := mem_apErase_ne hinv1.idsNodup
  refine ⟨?_, ?_, ?_⟩
  · rw [hent2, List.filter_append]
    have hfe : (apErase s1.entries x).filter (fun e => e.1 = x) = [] := by
      refine List.filter_eq_nil_iff.mpr ?_
      intro e he
      simp [herase_ne e he]
    rw [hfe]
    simp [hB]
  · rw [hent2, apLookup_append]
    rw [apLookup_eq_none_of_not_mem herase_ne]
    simp [apLookup, hB]
  · have hinvE : APInv { entries := apErase s1.entries x, live := s1.live.erase tid1,
                         callbacks := s1.callbacks, next := s1.next,
                         executorSet := s1.executorSet } := by
      have hh := apInv_stop s1 x hinv1
      rw [hstop1] at hh
      exact hh
    have htO : ticksOnly x none { entries := apErase s1.entries x,
                                  live := s1.live.erase tid1,
                                  callbacks := s1.callbacks, next := s1.next,
                                  executorSet := s1.executorSet } :=
      ticksOnly_none_after_stop s1 x _ hinv1 hstop1
    have hext := ticksOnly_extend_self _ B hinvE x hB htO
    have hts2 : ticksOnly x (some B) s2 := by
      rw [← hshape2, hbase2]
      exact hext
    intro es hes f hf hfx
    have hcon := ticksOnly_trace x (some B) es s2 hinv2 hts2 hes f hf hfx
    injection hcon with hcon2
    exact hcon2.symm

/-- State after `start("x", A)` from the fresh service. -/
def apReplaceS1 : APState :=
  { entries := [("x", 0, cfgXA)], live := [0], callbacks := [(0, "x", cfgXA)]
    next := 1, executorSet := true }

/-- State after the replacing `start("x", B)`. -/
def apReplaceS2 : APState :=
  { entries := [("x", 1, cfgXB)], live := [1]
    callbacks := [(0, "x", cfgXA), (1, "x", cfgXB)]
    next := 2, executorSet := true }

/-- Witness for C4: concrete replace `start("x", A, 50)`, `start("x", B, 30)`. -/
theorem autopress_replace_witness :
    ((apReplaceS2.entries.filter (fun e => e.1 = "x")).length = 1)
    ∧ apLookup apReplaceS2.entries "x" = some (1, cfgXB)
    ∧ ∀ f ∈ traceFires apReplaceS2 [APEvent.tickE 0, APEvent.tickE 1],
        f.1 = "x" → f.2 = cfgXB := by
  obtain ⟨ha, hb, hc⟩ := autopress_replace (apInitial true) "x" cfgXA cfgXB rfl rfl
    (apInv_initial true) apReplaceS1 apReplaceS2 (by decide) (by decide)
  exact ⟨ha, hb, fun f hf hfx =>
    hc [APEvent.tickE 0, APEvent.tickE 1] (by decide) f hf hfx⟩

/-- Counterexample to claim C7 as stated: with 2 enumerated windows the
explicit target 999 is out of range, yet invoking the mouse capability's
`mouse_click` with `window: 999` succeeds — mouse-io.ts's window-target
block is an empty TODO stub, so mouse operations ignore the explicit
target instead of failing with the invalid-target error. -/
theorem mouse_ignores_target :
    ((999 : Int) < 0 ∨ (2 : Int) ≤ 999)
    ∧ mouseHandleAction [ContentItem.image "shot"] 0 0 "mouse_click"
        [("window", JsonVal.num 999)] =
      Except.ok { content := [ContentItem.text "left clicked", ContentItem.image "shot"] } := by
  refine ⟨Or.inr (by norm_num), ?_⟩
  decide

/-- Claim C7 (amended): for operations that validate their explicit
target against the live window enumeration (the windows capability,
via `validateWindowId`), invocation fails with the invalid-target error
iff `t < 0` or `t ≥ n`, with the message listing the valid range `0` to
`n-1`; mouse operations accept the `window` parameter but ignore it
(unimplemented targeting stub), behaving identically with or without an
explicit target and never raising the invalid-target error. -/
theorem invalid_target_amended (sel : Option Int) (titles : List String) (t : Int)
    (shot : List ContentItem) (px py : Int) (ps : ParamBag) (w : JsonVal)
    (action : String) :
    ((exceptFailed (windowsHandleFocus sel titles t) = true
        ↔ (t < 0 ∨ (titles.length : Int) ≤ t))
      ∧ (∀ e : String, windowsHandleFocus sel titles t = .error e →
          ∃ pre, e = pre ++ validRangeNote titles.length))
    ∧ mouseHandleAction shot px py action (("window", w) :: ps) =
        mouseHandleAction shot px py action ps := by
  refine ⟨invalid_target_iff sel titles t, ?_⟩
  have hco : getParam (("window", w) :: ps) "coordinate" = getParam ps "coordinate" := by
    simp [getParam]
  have hbtn : getParam (("window", w) :: ps) "button" = getParam ps "button" := by
    simp [getParam]
  simp only [mouseHandleAction, hco, hbtn]

/-- Witness for the amended C7: two windows, explicit target 5 fails on
the windows path with the range note; the mouse path ignores an explicit
target of 999. -/
theorem invalid_target_amended_witness :
    exceptFailed (windowsHandleFocus none ["a", "b"] 5) = true
    ∧ (∃ pre,
        ("Invalid window ID: 5. Window ID exceeds available windows (2 windows found). " ++
          validRangeNote 2) = pre ++ validRangeNote 2)
    ∧ mouseHandleAction [ContentItem.image "shot"] 0 0 "mouse_click"
        [("window", JsonVal.num 999)] =
      mouseHandleAction [ContentItem.image "shot"] 0 0 "mouse_click" [] := by
  obtain ⟨⟨h1, h2⟩, h3⟩ := invalid_target_amended none ["a", "b"] 5
    [ContentItem.image "shot"] 0 0 [] (JsonVal.num 999) "mouse_click"
  exact ⟨h1.mpr (Or.inr (by norm_num)), h2 _ (by decide), h3⟩
